import Mathlib

/-!
Fuzzy-logic algebra of `src/algebra.cpp`

A shallow embedding of the t-norms, t-conorms, residua and negations of
`algebra.cpp`, followed by theorems about them.

Modelling conventions:

* A C++ `double` is a value of `RDouble`: a finite number (carried as a rational),
  one of the two infinities, an ordinary NaN, or R's `NA_REAL` (a NaN with a
  reserved payload).  Comparisons follow IEEE 754: every ordered comparison with a
  NaN (R's NA included) is false.
* Arithmetic is IEEE 754 binary64 arithmetic: the exact rational result of every
  single `+`, `-`, `*`, `/` is rounded to the nearest double, ties to even, with
  53 significant bits, gradual underflow below `2 ^ (-1022)` and overflow to an
  infinity from `2 ^ 1024` (`rnd`, `round64`).  Each operation of an expression is
  rounded on its own, in the order the source writes them.  The sign of zero is not
  modelled.
* `RDouble.num q` can carry any rational `q`; the values the arithmetic produces are
  doubles, and a theorem that needs an input to be a double says so
  (`Representable`).
* `Rcpp::stop(msg)` is an exception: every function returns `Except RError _`.
* A `NumericVector` is a `List RDouble`; `LogicalVector naRm` is read only through
  `!naRm[0]`, so it is carried as the `Bool` that says whether `naRm[0]` is nonzero.
* An integer `i % 0` is undefined behaviour in C++; it is modelled as the
  distinguished outcome `RError.modByZero`.
* Vector lengths are natural numbers: the `int` loop counters are assumed not to
  overflow.
-/

namespace Lfl

/-- The values a C++ `double` can take, as far as this program distinguishes them. -/
inductive RDouble where
  /-- a finite number -/
  | num (q : ℚ)
  /-- positive infinity -/
  | posInf
  /-- negative infinity -/
  | negInf
  /-- an IEEE NaN other than R's NA -/
  | nan
  /-- R's missing value `NA_REAL` -/
  | na
  deriving DecidableEq

/-- The ways a call can abort. -/
inductive RError where
  /-- `stop("argument out of range 0..1")` -/
  | outOfRange
  /-- `stop("NaN argument")` -/
  | nanArgument
  /-- integer remainder by zero (undefined behaviour in C++) -/
  | modByZero
  deriving DecidableEq

/-- The power of two `2 ^ e` as a rational. -/
def pow2 (e : ℤ) : ℚ :=
  if 0 ≤ e then ((2 ^ e.toNat : ℕ) : ℚ) else 1 / ((2 ^ (-e).toNat : ℕ) : ℚ)

/-- The floor of the binary logarithm of a positive natural number, by halving at
most `fuel` times. -/
def log2Fuel : Nat → Nat → Nat
  | 0, _ => 0
  | fuel + 1, n => if 2 ≤ n then log2Fuel fuel (n / 2) + 1 else 0

/-- The floor of the binary logarithm of a positive natural number. -/
def natLog2 (n : Nat) : Nat := log2Fuel n n

/-- The floor of the binary logarithm of a positive rational. -/
def ilog2 (a : ℚ) : ℤ :=
  let e0 : ℤ := (natLog2 a.num.natAbs : ℤ) - (natLog2 a.den : ℤ)
  if pow2 e0 ≤ a then e0 else e0 - 1

/-- Rounding of a rational to the nearest integer, ties to the even one. -/
def roundHalfEven (m : ℚ) : ℤ :=
  let f := ⌊m⌋
  let r := m - f
  if r < 1 / 2 then f
  else if 1 / 2 < r then f + 1
  else if f % 2 = 0 then f else f + 1

/-- The exponent of the binade of a positive rational, not below that of the
subnormal numbers. -/
def expo64 (a : ℚ) : ℤ := max (ilog2 a) (-1022)

/-- Rounding of a positive rational to nearest, ties to even, onto the binary64 grid
of its binade (53 significant bits, subnormal below `2 ^ (-1022)`), ignoring
overflow. -/
def rndPos (a : ℚ) : ℚ :=
  (roundHalfEven (a * pow2 (52 - expo64 a)) : ℚ) * pow2 (expo64 a - 52)

/-- Rounding to nearest, ties to even, onto the binary64 grid, ignoring overflow. -/
def rnd (q : ℚ) : ℚ :=
  if q = 0 then 0
  else if 0 < q then rndPos q
  else -rndPos (-q)

/-- The double a rational rounds to: to nearest, ties to even, with overflow to the
infinities. -/
def round64 (q : ℚ) : RDouble :=
  if pow2 1024 ≤ rnd q then .posInf
  else if rnd q ≤ -pow2 1024 then .negInf
  else .num (rnd q)

namespace RDouble

/-- The sign test `x < y` of IEEE doubles. -/
def lt : RDouble → RDouble → Bool
  | nan, _ => false
  | na, _ => false
  | _, nan => false
  | _, na => false
  | num a, num b => decide (a < b)
  | num _, posInf => true
  | num _, negInf => false
  | posInf, _ => false
  | negInf, negInf => false
  | negInf, _ => true

/-- The test `x == y` of IEEE doubles. -/
def eq : RDouble → RDouble → Bool
  | num a, num b => decide (a = b)
  | posInf, posInf => true
  | negInf, negInf => true
  | _, _ => false

/-- The test `x <= y` of IEEE doubles. -/
def le (x y : RDouble) : Bool := lt x y || eq x y

/-- The test `x > y`. -/
def gt (x y : RDouble) : Bool := lt y x

/-- The test `x >= y`. -/
def ge (x y : RDouble) : Bool := le y x

/-- Unary minus. -/
def neg : RDouble → RDouble
  | num a => num (-a)
  | posInf => negInf
  | negInf => posInf
  | nan => nan
  | na => na

/-- Addition `x + y`, rounded to double; a NaN operand is handed on (the first one,
if both are). -/
def add : RDouble → RDouble → RDouble
  | nan, _ => nan
  | na, _ => na
  | _, nan => nan
  | _, na => na
  | num a, num b => round64 (a + b)
  | posInf, negInf => nan
  | negInf, posInf => nan
  | posInf, _ => posInf
  | negInf, _ => negInf
  | num _, posInf => posInf
  | num _, negInf => negInf

/-- Subtraction `x - y`, rounded to double. -/
def sub (x y : RDouble) : RDouble := add x (neg y)

/-- Multiplication `x * y`, rounded to double. -/
def mul : RDouble → RDouble → RDouble
  | nan, _ => nan
  | na, _ => na
  | _, nan => nan
  | _, na => na
  | num a, num b => round64 (a * b)
  | posInf, posInf => posInf
  | negInf, negInf => posInf
  | posInf, negInf => negInf
  | negInf, posInf => negInf
  | posInf, num b => if b = 0 then nan else if 0 < b then posInf else negInf
  | negInf, num b => if b = 0 then nan else if 0 < b then negInf else posInf
  | num a, posInf => if a = 0 then nan else if 0 < a then posInf else negInf
  | num a, negInf => if a = 0 then nan else if 0 < a then negInf else posInf

/-- Division `x / y`, rounded to double. -/
def div : RDouble → RDouble → RDouble
  | nan, _ => nan
  | na, _ => na
  | _, nan => nan
  | _, na => na
  | num a, num b =>
    if b = 0 then (if a = 0 then nan else if 0 < a then posInf else negInf)
    else round64 (a / b)
  | num _, posInf => num 0
  | num _, negInf => num 0
  | posInf, num b => if 0 ≤ b then posInf else negInf
  | negInf, num b => if 0 ≤ b then negInf else posInf
  | posInf, posInf => nan
  | posInf, negInf => nan
  | negInf, posInf => nan
  | negInf, negInf => nan

end RDouble

instance instDecidableEqExcept {ε α : Type} [DecidableEq ε] [DecidableEq α] :
    DecidableEq (Except ε α)
  | .ok a, .ok b =>
    if h : a = b then isTrue (by rw [h]) else isFalse (fun h2 => h (Except.ok.inj h2))
  | .error a, .error b =>
    if h : a = b then isTrue (by rw [h]) else isFalse (fun h2 => h (Except.error.inj h2))
  | .ok _, .error _ => isFalse (fun h => Except.noConfusion h)
  | .error _, .ok _ => isFalse (fun h => Except.noConfusion h)

/-- R's `R_IsNA`: the missing marker, and nothing else. -/
def R_IsNA : RDouble → Bool
  | .na => true
  | _ => false

/-- R's `R_IsNaN`: a NaN that is not the missing marker. -/
def R_IsNaN : RDouble → Bool
  | .nan => true
  | _ => false

/-- The validator `testInvalids` (algebra.cpp, lines 14-21). -/
def testInvalids (x : RDouble) : Except RError Unit :=
  if x.lt (.num 0) || x.gt (.num 1) then
    .error .outOfRange
  else if R_IsNaN x then
    .error .nanArgument
  else
    .ok ()

/-- The loop of `goedel_tnorm` (lines 29-36), on the state `(res, na)`. -/
def goedel_tnorm_loop : List RDouble → RDouble → Bool → Except RError (RDouble × Bool)
  | [], res, na => .ok (res, na)
  | v :: vals, res, na =>
    match testInvalids v with
    | .error e => .error e
    | .ok _ =>
      if R_IsNA v then goedel_tnorm_loop vals res true
      else if v.lt res then goedel_tnorm_loop vals v na
      else goedel_tnorm_loop vals res na

/-- The function `goedel_tnorm` (lines 25-41). -/
def goedel_tnorm (vals : List RDouble) (naRm : Bool) : Except RError RDouble :=
  match goedel_tnorm_loop vals (.num 1) false with
  | .error e => .error e
  | .ok (res, na) =>
    if !naRm && na && res.gt (.num 0) then .ok .na else .ok res

/-- The loop of `lukas_tnorm` (lines 49-57), on the state `(res, na)`. -/
def lukas_tnorm_loop : List RDouble → RDouble → Bool → Except RError (RDouble × Bool)
  | [], res, na => .ok (res, na)
  | v :: vals, res, na =>
    match testInvalids v with
    | .error e => .error e
    | .ok _ =>
      if R_IsNA v then lukas_tnorm_loop vals (res.add (.num 1)) true
      else lukas_tnorm_loop vals (res.add v) na

/-- The function `lukas_tnorm` (lines 45-65); `vals.size()` is converted to double
for the subtraction. -/
def lukas_tnorm (vals : List RDouble) (naRm : Bool) : Except RError RDouble :=
  match lukas_tnorm_loop vals (.num 1) false with
  | .error e => .error e
  | .ok (res, na) =>
    let res := res.sub (round64 (vals.length : ℚ))
    if res.le (.num 0) then .ok (.num 0)
    else if !naRm && na then .ok .na
    else .ok res

/-- The loop of `goguen_tnorm` (lines 73-80), on the state `(res, na)`. -/
def goguen_tnorm_loop : List RDouble → RDouble → Bool → Except RError (RDouble × Bool)
  | [], res, na => .ok (res, na)
  | v :: vals, res, na =>
    match testInvalids v with
    | .error e => .error e
    | .ok _ =>
      if R_IsNA v then goguen_tnorm_loop vals res true
      else goguen_tnorm_loop vals (res.mul v) na

/-- The function `goguen_tnorm` (lines 69-85). -/
def goguen_tnorm (vals : List RDouble) (naRm : Bool) : Except RError RDouble :=
  match goguen_tnorm_loop vals (.num 1) false with
  | .error e => .error e
  | .ok (res, na) =>
    if !naRm && na && res.gt (.num 0) then .ok .na else .ok res

/-- The loop of `goedel_tconorm` (lines 93-100), on the state `(res, na)`. -/
def goedel_tconorm_loop : List RDouble → RDouble → Bool → Except RError (RDouble × Bool)
  | [], res, na => .ok (res, na)
  | v :: vals, res, na =>
    match testInvalids v with
    | .error e => .error e
    | .ok _ =>
      if R_IsNA v then goedel_tconorm_loop vals res true
      else if v.gt res then goedel_tconorm_loop vals v na
      else goedel_tconorm_loop vals res na

/-- The function `goedel_tconorm` (lines 89-105). -/
def goedel_tconorm (vals : List RDouble) (naRm : Bool) : Except RError RDouble :=
  match goedel_tconorm_loop vals (.num 0) false with
  | .error e => .error e
  | .ok (res, na) =>
    if !naRm && na && res.lt (.num 1) then .ok .na else .ok res

/-- The loop of `lukas_tconorm` (lines 113-120), on the state `(res, na)`. -/
def lukas_tconorm_loop : List RDouble → RDouble → Bool → Except RError (RDouble × Bool)
  | [], res, na => .ok (res, na)
  | v :: vals, res, na =>
    match testInvalids v with
    | .error e => .error e
    | .ok _ =>
      if R_IsNA v then lukas_tconorm_loop vals res true
      else lukas_tconorm_loop vals (res.add v) na

/-- The function `lukas_tconorm` (lines 109-127). -/
def lukas_tconorm (vals : List RDouble) (naRm : Bool) : Except RError RDouble :=
  match lukas_tconorm_loop vals (.num 0) false with
  | .error e => .error e
  | .ok (res, na) =>
    if res.ge (.num 1) then .ok (.num 1)
    else if !naRm && na then .ok .na
    else .ok res

/-- The loop of `goguen_tconorm` (lines 135-142), on the state `(res, na)`. -/
def goguen_tconorm_loop : List RDouble → RDouble → Bool → Except RError (RDouble × Bool)
  | [], res, na => .ok (res, na)
  | v :: vals, res, na =>
    match testInvalids v with
    | .error e => .error e
    | .ok _ =>
      if R_IsNA v then goguen_tconorm_loop vals res true
      else goguen_tconorm_loop vals ((res.add v).sub (res.mul v)) na

/-- The function `goguen_tconorm` (lines 131-147). -/
def goguen_tconorm (vals : List RDouble) (naRm : Bool) : Except RError RDouble :=
  match goguen_tconorm_loop vals (.num 0) false with
  | .error e => .error e
  | .ok (res, na) =>
    if !naRm && na && res.lt (.num 1) then .ok .na else .ok res

/-- The loop `for (int i = 0; i < n; ++i) res[i] = body(i)` shared by the three
residua, run over the indices still to be visited; an abort in any iteration
aborts the loop. -/
def residuum_loop (body : Nat → Except RError RDouble) :
    List Nat → Except RError (List RDouble)
  | [] => .ok []
  | i :: rest =>
    match body i with
    | .error e => .error e
    | .ok r =>
      match residuum_loop body rest with
      | .error e => .error e
      | .ok rs => .ok (r :: rs)

/-- The recycled operands `x[i % x.size()]`, `y[i % y.size()]` of one iteration of a
residuum loop, after both went through `testInvalids`. -/
def residuum_operands (x y : List RDouble) (i : Nat) : Except RError (RDouble × RDouble) :=
  if hx : x.length = 0 then .error .modByZero
  else if hy : y.length = 0 then .error .modByZero
  else
    let xv := x.get ⟨i % x.length, Nat.mod_lt i (Nat.pos_of_ne_zero hx)⟩
    let yv := y.get ⟨i % y.length, Nat.mod_lt i (Nat.pos_of_ne_zero hy)⟩
    match testInvalids xv with
    | .error e => .error e
    | .ok _ =>
      match testInvalids yv with
      | .error e => .error e
      | .ok _ => .ok (xv, yv)

/-- The body of the loop of `goedel_residuum` (lines 156-168). -/
def goedel_residuum_body (x y : List RDouble) (i : Nat) : Except RError RDouble :=
  match residuum_operands x y i with
  | .error e => .error e
  | .ok (xv, yv) =>
    if xv.eq (.num 0) then .ok (.num 1)
    else if R_IsNA xv || R_IsNA yv then .ok .na
    else if xv.le yv then .ok (.num 1)
    else .ok yv

/-- The function `goedel_residuum` (lines 151-171). -/
def goedel_residuum (x y : List RDouble) : Except RError (List RDouble) :=
  let n := if x.length > y.length then x.length else y.length
  residuum_loop (goedel_residuum_body x y) (List.range n)

/-- The body of the loop of `lukas_residuum` (lines 180-192). -/
def lukas_residuum_body (x y : List RDouble) (i : Nat) : Except RError RDouble :=
  match residuum_operands x y i with
  | .error e => .error e
  | .ok (xv, yv) =>
    if xv.eq (.num 0) then .ok (.num 1)
    else if R_IsNA xv || R_IsNA yv then .ok .na
    else if xv.le yv then .ok (.num 1)
    else .ok ((RDouble.sub (.num 1) xv).add yv)

/-- The function `lukas_residuum` (lines 175-195). -/
def lukas_residuum (x y : List RDouble) : Except RError (List RDouble) :=
  let n := if x.length > y.length then x.length else y.length
  residuum_loop (lukas_residuum_body x y) (List.range n)

/-- The body of the loop of `goguen_residuum` (lines 204-216). -/
def goguen_residuum_body (x y : List RDouble) (i : Nat) : Except RError RDouble :=
  match residuum_operands x y i with
  | .error e => .error e
  | .ok (xv, yv) =>
    if xv.eq (.num 0) then .ok (.num 1)
    else if R_IsNA xv || R_IsNA yv then .ok .na
    else if xv.le yv then .ok (.num 1)
    else .ok (yv.div xv)

/-- The function `goguen_residuum` (lines 199-219). -/
def goguen_residuum (x y : List RDouble) : Except RError (List RDouble) :=
  let n := if x.length > y.length then x.length else y.length
  residuum_loop (goguen_residuum_body x y) (List.range n)

/-- The value stored in `res[i]` by one iteration of `strict_neg` (lines 244-250). -/
def strict_neg_value (v : RDouble) : RDouble :=
  if R_IsNA v then .na else if v.eq (.num 0) then .num 1 else .num 0

/-- The function `strict_neg` (lines 239-253). -/
def strict_neg : List RDouble → Except RError (List RDouble)
  | [] => .ok []
  | v :: x =>
    match testInvalids v with
    | .error e => .error e
    | .ok _ =>
      match strict_neg x with
      | .error e => .error e
      | .ok rs => .ok (strict_neg_value v :: rs)

/-! ## Vocabulary of the specification -/

/-- A valid truth value: the missing marker, or a number in `[0,1]`. -/
def ValidTruth : RDouble → Prop
  | .num q => 0 ≤ q ∧ q ≤ 1
  | .na => True
  | _ => False

instance instDecidableValidTruth (v : RDouble) : Decidable (ValidTruth v) := by
  cases v <;> unfold ValidTruth <;> infer_instance

/-- A valid non-missing truth value: a number in `[0,1]`. -/
def ValidNumber : RDouble → Prop
  | .num q => 0 ≤ q ∧ q ≤ 1
  | _ => False

instance instDecidableValidNumber (v : RDouble) : Decidable (ValidNumber v) := by
  cases v <;> unfold ValidNumber <;> infer_instance

/-- The non-missing numbers of a sequence, in order. -/
def nonMissing : List RDouble → List ℚ
  | [] => []
  | .num q :: vs => q :: nonMissing vs
  | _ :: vs => nonMissing vs

/-- Whether a sequence contains the missing marker. -/
def hasMissing : List RDouble → Bool
  | [] => false
  | .na :: _ => true
  | _ :: vs => hasMissing vs

/-- The number of missing elements of a sequence. -/
def countMissing : List RDouble → Nat
  | [] => 0
  | .na :: vs => countMissing vs + 1
  | _ :: vs => countMissing vs

/-- The minimum of 1 and all non-missing elements of a sequence. -/
def minWithOne (vals : List RDouble) : ℚ := (nonMissing vals).foldr min 1

/-- The bounded sum of the Łukasiewicz t-norm: the sum of the non-missing elements,
plus the number of missing elements, minus `n - 1`. -/
def lukasBoundedSum (vals : List RDouble) : ℚ :=
  (nonMissing vals).sum + (countMissing vals : ℚ) - ((vals.length : ℚ) - 1)

/-- The number `r` is the residuum of `tnorm` at `(x, z)`: it lies in `[0,1]`,
`tnorm [x, r] ≤ z`, and every `y` in `[0,1]` with `tnorm [x, y] ≤ z` is at most `r`
(whatever the flag). -/
def IsResiduumOf (tnorm : List RDouble → Bool → Except RError RDouble) (x z r : ℚ) : Prop :=
  0 ≤ r ∧ r ≤ 1 ∧
  (∀ f, ∃ t, tnorm [.num x, .num r] f = .ok (.num t) ∧ t ≤ z) ∧
  (∀ y, 0 ≤ y → y ≤ 1 → ∀ f, ∃ t, tnorm [.num x, .num y] f = .ok (.num t) ∧ (t ≤ z → y ≤ r))

/-- The elementwise rule of the residua, steps 2 to 5: 1 if `xv` is the number 0,
else missing if `xv` or `yv` is missing, else 1 if `xv ≤ yv`, else the value `last`
of the family. -/
def residuum_rule (last : RDouble → RDouble → RDouble) (xv yv : RDouble) : RDouble :=
  if xv.eq (.num 0) then .num 1
  else if R_IsNA xv || R_IsNA yv then .na
  else if xv.le yv then .num 1
  else last xv yv

/-- The last case of the Gödel residuum: `yi`. -/
def goedel_last (_xv yv : RDouble) : RDouble := yv

/-- The last case of the Łukasiewicz residuum: `1 - xi + yi`. -/
def lukas_last (xv yv : RDouble) : RDouble := (RDouble.sub (.num 1) xv).add yv

/-- The last case of the Goguen residuum: `yi / xi`. -/
def goguen_last (xv yv : RDouble) : RDouble := yv.div xv

/-- The error the validator gives for the first element of a sequence that it
rejects, if there is one. -/
def firstRejection : List RDouble → Option RError
  | [] => none
  | v :: vs =>
    match testInvalids v with
    | .error e => some e
    | .ok _ => firstRejection vs

/-- The first element of `xs`, in sequence order, that the validator rejects is
rejected with the error `e`. -/
def FirstRejectedWith (xs : List RDouble) (e : RError) : Prop :=
  ∃ pre v post, xs = pre ++ v :: post ∧ (∀ w ∈ pre, testInvalids w = .ok ()) ∧
    testInvalids v = .error e

/-- Validation aborts the whole call of the aggregator `agg`: the call fails exactly
when the sequence has an element the validator rejects, and then with the error of
the first such element. -/
def ValidationAborts (agg : List RDouble → Bool → Except RError RDouble) : Prop :=
  ∀ xs f, ((∃ e, agg xs f = .error e) ↔ ∃ v ∈ xs, testInvalids v ≠ .ok ()) ∧
    ∀ e, agg xs f = .error e ↔ FirstRejectedWith xs e

/-- Strict negation of one truth value as the specification words it: missing if
the value is missing, 1 if it is the number 0, and 0 otherwise. -/
def strictNegSpec (v : RDouble) : RDouble :=
  if v = .na then .na else if v = .num 0 then .num 1 else .num 0

/-- The sequence with all missing elements deleted. -/
def removeMissing : List RDouble → List RDouble
  | [] => []
  | .na :: vs => removeMissing vs
  | v :: vs => v :: removeMissing vs

/-- The sequence `xs2` is obtained from `xs` by replacing each missing element with
some number in `[0,1]` and keeping every other element. -/
def FillsMissing (xs xs2 : List RDouble) : Prop :=
  List.Forall₂ (fun v w => if v = .na then ValidNumber w else w = v) xs xs2

/-- The value is a double: rounding it to binary64 leaves it unchanged.  Every
special value is one. -/
def Representable : RDouble → Prop
  | .num q => rnd q = q
  | _ => True

instance instDecidableRepresentable (v : RDouble) : Decidable (Representable v) := by
  cases v <;> unfold Representable <;> infer_instance

/-- A crisp truth value: the number 0, the number 1, or the missing marker. -/
def Crisp (v : RDouble) : Prop := v = .num 0 ∨ v = .num 1 ∨ v = .na

instance instDecidableCrisp (v : RDouble) : Decidable (Crisp v) := by
  unfold Crisp; infer_instance

/-- The running sum of `qs` started at `r`, in sequence order, each addition rounded
to double. -/
def roundedSum (qs : List ℚ) (r : ℚ) : ℚ := qs.foldl (fun r q => rnd (r + q)) r

/-- The running product of `qs` started at `r`, in sequence order, each
multiplication rounded to double. -/
def roundedProd (qs : List ℚ) (r : ℚ) : ℚ := qs.foldl (fun r q => rnd (r * q)) r

/-- The fold `result := result + x - result * x` over `qs` started at `r`, in
sequence order, each of the three operations rounded to double. -/
def roundedProbSum (qs : List ℚ) (r : ℚ) : ℚ :=
  qs.foldl (fun r q => rnd (rnd (r + q) - rnd (r * q))) r

/-- The terms the Łukasiewicz t-norm adds up: each non-missing element, and 1 for
each missing one. -/
def lukasTerms : List RDouble → List ℚ
  | [] => []
  | .num q :: vs => q :: lukasTerms vs
  | _ :: vs => 1 :: lukasTerms vs

/-- The Łukasiewicz t-norm as the precise rule words it, with the amount taken off
the total as a parameter (the rule says `n - 1`): the total starts at 1, each
non-missing element is added, each missing element adds 1, then `subtracted` is
taken off; the bounded result is compared with 0 and returned.  The additions and
the subtraction are those of doubles, in sequence order. -/
def lukas_tnorm_worded (subtracted : ℚ) (vals : List RDouble) (naRm : Bool) : RDouble :=
  let total := roundedSum (lukasTerms vals) 1
  let bounded := rnd (total - rnd subtracted)
  if bounded ≤ 0 then .num 0
  else if !naRm && hasMissing vals then .na
  else .num bounded

/-- The bounded sum of the Łukasiewicz t-norm as the code computes it in doubles:
`((1 + t1) + ... + tn) - n`, where `ti` is the element `i` (1 if it is missing). -/
def lukasRoundedT (vals : List RDouble) : ℚ :=
  rnd (roundedSum (lukasTerms vals) 1 - rnd (vals.length : ℚ))

/-! ## Auxiliary facts about the embedding -/

theorem two_zpow_pos (e : ℤ) : (0 : ℚ) < 2 ^ e := zpow_pos (by norm_num) e

theorem pow2_eq (e : ℤ) : pow2 e = (2 : ℚ) ^ e := by
  unfold pow2
  by_cases h : 0 ≤ e
  · rw [if_pos h]
    obtain ⟨n, rfl⟩ := Int.eq_ofNat_of_zero_le h
    simp [zpow_natCast]
  · rw [if_neg h]
    have h2 : 0 ≤ -e := by omega
    obtain ⟨n, hn⟩ := Int.eq_ofNat_of_zero_le h2
    have he : e = -(n : ℤ) := by omega
    rw [hn, he, zpow_neg, zpow_natCast]
    simp

theorem log2Fuel_spec (fuel n : Nat) (h1 : 1 ≤ n) (h2 : n < 2 ^ fuel) :
    2 ^ log2Fuel fuel n ≤ n ∧ n < 2 ^ (log2Fuel fuel n + 1) := by
  induction fuel generalizing n with
  | zero =>
    simp only [pow_zero, Nat.lt_one_iff] at h2
    omega
  | succ f ih =>
    unfold log2Fuel
    by_cases h : 2 ≤ n
    · rw [if_pos h]
      have h3 : 1 ≤ n / 2 := by omega
      have h4 : n / 2 < 2 ^ f := by
        rw [pow_succ] at h2
        omega
      obtain ⟨a, b⟩ := ih (n / 2) h3 h4
      constructor
      · rw [pow_succ]; omega
      · rw [pow_succ]; omega
    · rw [if_neg h]
      have : n = 1 := by omega
      subst this
      norm_num

theorem natLog2_spec (n : Nat) (h1 : 1 ≤ n) :
    2 ^ natLog2 n ≤ n ∧ n < 2 ^ (natLog2 n + 1) :=
  log2Fuel_spec n n h1 (Nat.lt_two_pow n)

theorem ilog2_spec (a : ℚ) (ha : 0 < a) :
    (2 : ℚ) ^ ilog2 a ≤ a ∧ a < (2 : ℚ) ^ (ilog2 a + 1) := by
  have hnum : 0 < a.num := Rat.num_pos.mpr ha
  have hp1 : 1 ≤ a.num.natAbs := by omega
  have hq1 : 1 ≤ a.den := a.den_pos
  obtain ⟨p1, p2⟩ := natLog2_spec a.num.natAbs hp1
  obtain ⟨q1, q2⟩ := natLog2_spec a.den hq1
  have hpq : a = (a.num.natAbs : ℚ) / (a.den : ℚ) := by
    have h2 : ((a.num.natAbs : ℕ) : ℚ) = (a.num : ℚ) := by
      rw [← Int.cast_natCast, Int.natAbs_of_nonneg hnum.le]
    rw [h2]
    exact (Rat.num_div_den a).symm
  have hdpos : (0 : ℚ) < (a.den : ℚ) := by exact_mod_cast a.den_pos
  have P1 : (2 : ℚ) ^ (natLog2 a.num.natAbs : ℤ) ≤ (a.num.natAbs : ℚ) := by
    rw [zpow_natCast]; exact_mod_cast p1
  have P2 : (a.num.natAbs : ℚ) < (2 : ℚ) ^ ((natLog2 a.num.natAbs : ℤ) + 1) := by
    have : ((natLog2 a.num.natAbs : ℤ) + 1) = ((natLog2 a.num.natAbs + 1 : ℕ) : ℤ) := by
      push_cast; ring
    rw [this, zpow_natCast]; exact_mod_cast p2
  have Q1 : (2 : ℚ) ^ (natLog2 a.den : ℤ) ≤ (a.den : ℚ) := by
    rw [zpow_natCast]; exact_mod_cast q1
  have Q2 : (a.den : ℚ) < (2 : ℚ) ^ ((natLog2 a.den : ℤ) + 1) := by
    have : ((natLog2 a.den : ℤ) + 1) = ((natLog2 a.den + 1 : ℕ) : ℤ) := by
      push_cast; ring
    rw [this, zpow_natCast]; exact_mod_cast q2
  have two_ne : (2 : ℚ) ≠ 0 := by norm_num
  have hppos : (0 : ℚ) ≤ (a.num.natAbs : ℚ) := by positivity
  have U : a < (2 : ℚ) ^ ((natLog2 a.num.natAbs : ℤ) - (natLog2 a.den : ℤ) + 1) := by
    have e : ((natLog2 a.num.natAbs : ℤ) - (natLog2 a.den : ℤ) + 1)
        = ((natLog2 a.num.natAbs : ℤ) + 1) - (natLog2 a.den : ℤ) := by ring
    have key : (a.num.natAbs : ℚ) / (a.den : ℚ)
        < (2 : ℚ) ^ ((natLog2 a.num.natAbs : ℤ) + 1) / (2 : ℚ) ^ (natLog2 a.den : ℤ) := by
      rw [div_lt_div_iff₀ hdpos (two_zpow_pos _)]
      calc (a.num.natAbs : ℚ) * 2 ^ (natLog2 a.den : ℤ)
          ≤ (a.num.natAbs : ℚ) * (a.den : ℚ) := mul_le_mul_of_nonneg_left Q1 hppos
        _ < 2 ^ ((natLog2 a.num.natAbs : ℤ) + 1) * (a.den : ℚ) :=
            mul_lt_mul_of_pos_right P2 hdpos
    rw [e, zpow_sub₀ two_ne]
    exact lt_of_eq_of_lt hpq key
  have L : (2 : ℚ) ^ ((natLog2 a.num.natAbs : ℤ) - (natLog2 a.den : ℤ) - 1) ≤ a := by
    have e : ((natLog2 a.num.natAbs : ℤ) - (natLog2 a.den : ℤ) - 1)
        = (natLog2 a.num.natAbs : ℤ) - ((natLog2 a.den : ℤ) + 1) := by ring
    have key : (2 : ℚ) ^ (natLog2 a.num.natAbs : ℤ) / (2 : ℚ) ^ ((natLog2 a.den : ℤ) + 1)
        ≤ (a.num.natAbs : ℚ) / (a.den : ℚ) := by
      rw [div_le_div_iff₀ (two_zpow_pos _) hdpos]
      calc (2 : ℚ) ^ (natLog2 a.num.natAbs : ℤ) * (a.den : ℚ)
          ≤ (a.num.natAbs : ℚ) * (a.den : ℚ) := mul_le_mul_of_nonneg_right P1 hdpos.le
        _ ≤ (a.num.natAbs : ℚ) * 2 ^ ((natLog2 a.den : ℤ) + 1) :=
            mul_le_mul_of_nonneg_left Q2.le hppos
    rw [e, zpow_sub₀ two_ne]
    exact le_of_le_of_eq key hpq.symm
  unfold ilog2
  simp only [pow2_eq]
  by_cases h : (2 : ℚ) ^ ((natLog2 a.num.natAbs : ℤ) - (natLog2 a.den : ℤ)) ≤ a
  · rw [if_pos h]
    exact ⟨h, U⟩
  · rw [if_neg h]
    refine ⟨L, ?_⟩
    rw [sub_add_cancel]
    exact not_le.mp h

theorem ilog2_unique (a : ℚ) (e : ℤ) (h1 : (2 : ℚ) ^ e ≤ a) (h2 : a < (2 : ℚ) ^ (e + 1)) :
    ilog2 a = e := by
  have ha : 0 < a := lt_of_lt_of_le (two_zpow_pos e) h1
  obtain ⟨s1, s2⟩ := ilog2_spec a ha
  have one_lt : (1 : ℚ) < 2 := by norm_num
  have a1 : ilog2 a < e + 1 := (zpow_lt_zpow_iff_right₀ one_lt).mp (lt_of_le_of_lt s1 h2)
  have a2 : e < ilog2 a + 1 := (zpow_lt_zpow_iff_right₀ one_lt).mp (lt_of_le_of_lt h1 s2)
  omega

theorem ilog2_mono (a b : ℚ) (ha : 0 < a) (hab : a ≤ b) : ilog2 a ≤ ilog2 b := by
  obtain ⟨s1, _⟩ := ilog2_spec a ha
  obtain ⟨_, t2⟩ := ilog2_spec b (lt_of_lt_of_le ha hab)
  have one_lt : (1 : ℚ) < 2 := by norm_num
  have : ilog2 a < ilog2 b + 1 :=
    (zpow_lt_zpow_iff_right₀ one_lt).mp (lt_of_le_of_lt (le_trans s1 hab) t2)
  omega

theorem roundHalfEven_cases (m : ℚ) :
    roundHalfEven m = ⌊m⌋ ∨ roundHalfEven m = ⌊m⌋ + 1 := by
  unfold roundHalfEven
  simp only
  split_ifs <;> simp

theorem roundHalfEven_sub_le (m : ℚ) : (roundHalfEven m : ℚ) - m ≤ 1 / 2 := by
  have h1 := Int.floor_le m
  have h2 := Int.lt_floor_add_one m
  unfold roundHalfEven
  simp only
  split_ifs with a b c
  · linarith
  · push_cast; linarith
  · linarith
  · push_cast
    have : m - ⌊m⌋ = 1 / 2 := le_antisymm (not_lt.mp b) (not_lt.mp a)
    linarith

theorem sub_roundHalfEven_le (m : ℚ) : m - (roundHalfEven m : ℚ) ≤ 1 / 2 := by
  have h1 := Int.floor_le m
  have h2 := Int.lt_floor_add_one m
  unfold roundHalfEven
  simp only
  split_ifs with a b c
  · linarith
  · push_cast; linarith
  · have : m - ⌊m⌋ = 1 / 2 := le_antisymm (not_lt.mp b) (not_lt.mp a)
    linarith
  · push_cast; linarith

theorem roundHalfEven_int (k : ℤ) : roundHalfEven (k : ℚ) = k := by
  unfold roundHalfEven
  simp

theorem roundHalfEven_mono (m n : ℚ) (h : m ≤ n) : roundHalfEven m ≤ roundHalfEven n := by
  have hf : ⌊m⌋ ≤ ⌊n⌋ := Int.floor_le_floor h
  rcases lt_or_eq_of_le hf with hlt | heq
  · have a : roundHalfEven m ≤ ⌊m⌋ + 1 := by
      rcases roundHalfEven_cases m with h1 | h1 <;> omega
    have b : ⌊n⌋ ≤ roundHalfEven n := by
      rcases roundHalfEven_cases n with h1 | h1 <;> omega
    omega
  · unfold roundHalfEven
    simp only
    rw [← heq]
    have hr : m - ⌊m⌋ ≤ n - ⌊m⌋ := by linarith
    split_ifs <;> first | omega | (exfalso; linarith)


theorem expo64_ge (a : ℚ) : -1022 ≤ expo64 a := le_max_right _ _

theorem lt_two_zpow_expo64 (a : ℚ) (ha : 0 < a) : a < (2 : ℚ) ^ (expo64 a + 1) := by
  obtain ⟨_, s2⟩ := ilog2_spec a ha
  refine lt_of_lt_of_le s2 (zpow_le_zpow_right₀ (by norm_num) ?_)
  have := le_max_left (ilog2 a) (-1022)
  unfold expo64
  omega

theorem two_zpow_expo64_le (a : ℚ) (ha : 0 < a) (h : -1022 < expo64 a) :
    (2 : ℚ) ^ expo64 a ≤ a := by
  obtain ⟨s1, _⟩ := ilog2_spec a ha
  have e : expo64 a = ilog2 a := by
    unfold expo64 at h ⊢
    rcases max_cases (ilog2 a) (-1022) with ⟨h1, _⟩ | ⟨h1, _⟩
    · exact h1
    · omega
  rw [e]
  exact s1

theorem expo64_mono (a b : ℚ) (ha : 0 < a) (hab : a ≤ b) : expo64 a ≤ expo64 b :=
  max_le_max (ilog2_mono a b ha hab) le_rfl

theorem zpow_mul_cancel (e : ℤ) : (2 : ℚ) ^ (52 - e) * (2 : ℚ) ^ (e - 52) = 1 := by
  rw [← zpow_add₀ (by norm_num : (2 : ℚ) ≠ 0)]
  have : 52 - e + (e - 52) = 0 := by ring
  rw [this, zpow_zero]

theorem scaled_lt (a : ℚ) (ha : 0 < a) : a * (2 : ℚ) ^ (52 - expo64 a) < 2 ^ (53 : ℤ) := by
  have h := lt_two_zpow_expo64 a ha
  have hp := two_zpow_pos (52 - expo64 a)
  calc a * (2 : ℚ) ^ (52 - expo64 a)
      < (2 : ℚ) ^ (expo64 a + 1) * (2 : ℚ) ^ (52 - expo64 a) := mul_lt_mul_of_pos_right h hp
    _ = 2 ^ (53 : ℤ) := by
        rw [← zpow_add₀ (by norm_num : (2 : ℚ) ≠ 0)]
        congr 1; ring

theorem scaled_ge (a : ℚ) (ha : 0 < a) (h : -1022 < expo64 a) :
    (2 : ℚ) ^ (52 : ℤ) ≤ a * (2 : ℚ) ^ (52 - expo64 a) := by
  have h1 := two_zpow_expo64_le a ha h
  have hp := two_zpow_pos (52 - expo64 a)
  calc (2 : ℚ) ^ (52 : ℤ) = (2 : ℚ) ^ expo64 a * (2 : ℚ) ^ (52 - expo64 a) := by
        rw [← zpow_add₀ (by norm_num : (2 : ℚ) ≠ 0)]
        congr 1; ring
    _ ≤ a * (2 : ℚ) ^ (52 - expo64 a) := mul_le_mul_of_nonneg_right h1 hp.le

theorem rndPos_eq (a : ℚ) :
    rndPos a = (roundHalfEven (a * (2 : ℚ) ^ (52 - expo64 a)) : ℚ) * (2 : ℚ) ^ (expo64 a - 52) := by
  simp only [rndPos, pow2_eq]

theorem roundHalfEven_nonneg (m : ℚ) (h : 0 ≤ m) : 0 ≤ roundHalfEven m := by
  have := roundHalfEven_mono 0 m h
  rwa [show ((0 : ℚ)) = ((0 : ℤ) : ℚ) by simp, roundHalfEven_int] at this

theorem rndPos_nonneg (a : ℚ) (ha : 0 < a) : 0 ≤ rndPos a := by
  rw [rndPos_eq]
  have h1 : 0 ≤ a * (2 : ℚ) ^ (52 - expo64 a) := (mul_pos ha (two_zpow_pos _)).le
  have h2 := roundHalfEven_nonneg _ h1
  exact mul_nonneg (by exact_mod_cast h2) (two_zpow_pos _).le

theorem rndPos_le_top (a : ℚ) (ha : 0 < a) : rndPos a ≤ (2 : ℚ) ^ (expo64 a + 1) := by
  rw [rndPos_eq]
  have h1 := (scaled_lt a ha).le
  have h2 := roundHalfEven_mono _ _ h1
  have e53 : ((2 : ℚ) ^ (53 : ℤ)) = (((2 : ℤ) ^ (53 : ℕ) : ℤ) : ℚ) := by norm_num
  rw [e53, roundHalfEven_int] at h2
  have h3 : (roundHalfEven (a * (2 : ℚ) ^ (52 - expo64 a)) : ℚ) ≤ (2 : ℚ) ^ (53 : ℤ) := by
    rw [e53]; exact_mod_cast h2
  calc (roundHalfEven (a * (2 : ℚ) ^ (52 - expo64 a)) : ℚ) * (2 : ℚ) ^ (expo64 a - 52)
      ≤ (2 : ℚ) ^ (53 : ℤ) * (2 : ℚ) ^ (expo64 a - 52) :=
        mul_le_mul_of_nonneg_right h3 (two_zpow_pos _).le
    _ = (2 : ℚ) ^ (expo64 a + 1) := by
        rw [← zpow_add₀ (by norm_num : (2 : ℚ) ≠ 0)]
        congr 1; ring

theorem rndPos_ge_bottom (a : ℚ) (ha : 0 < a) (h : -1022 < expo64 a) :
    (2 : ℚ) ^ expo64 a ≤ rndPos a := by
  rw [rndPos_eq]
  have h1 := scaled_ge a ha h
  have h2 := roundHalfEven_mono _ _ h1
  have e52 : ((2 : ℚ) ^ (52 : ℤ)) = (((2 : ℤ) ^ (52 : ℕ) : ℤ) : ℚ) := by norm_num
  rw [e52, roundHalfEven_int] at h2
  have h3 : (2 : ℚ) ^ (52 : ℤ) ≤ (roundHalfEven (a * (2 : ℚ) ^ (52 - expo64 a)) : ℚ) := by
    rw [e52]; exact_mod_cast h2
  calc (2 : ℚ) ^ expo64 a = (2 : ℚ) ^ (52 : ℤ) * (2 : ℚ) ^ (expo64 a - 52) := by
        rw [← zpow_add₀ (by norm_num : (2 : ℚ) ≠ 0)]
        congr 1; ring
    _ ≤ (roundHalfEven (a * (2 : ℚ) ^ (52 - expo64 a)) : ℚ) * (2 : ℚ) ^ (expo64 a - 52) :=
        mul_le_mul_of_nonneg_right h3 (two_zpow_pos _).le

theorem rndPos_mono (a b : ℚ) (ha : 0 < a) (hab : a ≤ b) : rndPos a ≤ rndPos b := by
  have hb : 0 < b := lt_of_lt_of_le ha hab
  rcases lt_or_eq_of_le (expo64_mono a b ha hab) with hlt | heq
  · have h1 := rndPos_le_top a ha
    have h2 := rndPos_ge_bottom b hb (lt_of_le_of_lt (expo64_ge a) hlt)
    have h3 : (2 : ℚ) ^ (expo64 a + 1) ≤ (2 : ℚ) ^ expo64 b :=
      zpow_le_zpow_right₀ (by norm_num) (by omega)
    exact le_trans h1 (le_trans h3 h2)
  · rw [rndPos_eq, rndPos_eq, heq]
    have h1 : a * (2 : ℚ) ^ (52 - expo64 b) ≤ b * (2 : ℚ) ^ (52 - expo64 b) :=
      mul_le_mul_of_nonneg_right hab (two_zpow_pos _).le
    have h2 := roundHalfEven_mono _ _ h1
    exact mul_le_mul_of_nonneg_right (by exact_mod_cast h2) (two_zpow_pos _).le

theorem rnd_zero : rnd 0 = 0 := by simp [rnd]

theorem rnd_of_pos (q : ℚ) (h : 0 < q) : rnd q = rndPos q := by
  simp [rnd, ne_of_gt h, h]

theorem rnd_of_neg (q : ℚ) (h : q < 0) : rnd q = -rndPos (-q) := by
  simp [rnd, ne_of_lt h, not_lt.mpr h.le]

theorem rnd_neg (q : ℚ) : rnd (-q) = -rnd q := by
  rcases lt_trichotomy q 0 with h | h | h
  · rw [rnd_of_neg q h, rnd_of_pos (-q) (by linarith), neg_neg]
  · simp [h, rnd_zero]
  · rw [rnd_of_pos q h, rnd_of_neg (-q) (by linarith), neg_neg]

theorem rnd_nonneg (q : ℚ) (h : 0 ≤ q) : 0 ≤ rnd q := by
  rcases lt_or_eq_of_le h with h1 | h1
  · rw [rnd_of_pos q h1]; exact rndPos_nonneg q h1
  · rw [← h1, rnd_zero]

theorem rnd_nonpos (q : ℚ) (h : q ≤ 0) : rnd q ≤ 0 := by
  have := rnd_nonneg (-q) (by linarith)
  rw [rnd_neg] at this
  linarith

theorem rnd_mono (a b : ℚ) (hab : a ≤ b) : rnd a ≤ rnd b := by
  rcases lt_trichotomy a 0 with ha | ha | ha
  · rcases lt_or_le b 0 with hb | hb
    · rw [rnd_of_neg a ha, rnd_of_neg b hb]
      have := rndPos_mono (-b) (-a) (by linarith) (by linarith)
      linarith
    · exact le_trans (rnd_nonpos a ha.le) (rnd_nonneg b hb)
  · rw [ha, rnd_zero]
    exact rnd_nonneg b (by linarith)
  · rw [rnd_of_pos a ha, rnd_of_pos b (lt_of_lt_of_le ha hab)]
    exact rndPos_mono a b ha hab


theorem rndPos_fix (a : ℚ) (k : ℤ) (h : a * (2 : ℚ) ^ (52 - expo64 a) = (k : ℚ)) :
    rndPos a = a := by
  rw [rndPos_eq, h, roundHalfEven_int, ← h, mul_assoc, zpow_mul_cancel, mul_one]

theorem ilog2_lt_of_lt (a : ℚ) (ha : 0 < a) (k : ℤ) (h : a < (2 : ℚ) ^ k) : ilog2 a < k := by
  obtain ⟨s1, _⟩ := ilog2_spec a ha
  exact (zpow_lt_zpow_iff_right₀ (by norm_num : (1 : ℚ) < 2)).mp (lt_of_le_of_lt s1 h)

theorem le_ilog2_of_le (a : ℚ) (ha : 0 < a) (k : ℤ) (h : (2 : ℚ) ^ k ≤ a) : k ≤ ilog2 a := by
  obtain ⟨_, s2⟩ := ilog2_spec a ha
  have := (zpow_lt_zpow_iff_right₀ (by norm_num : (1 : ℚ) < 2)).mp (lt_of_le_of_lt h s2)
  omega

theorem expo64_le_of_lt (a : ℚ) (ha : 0 < a) (k : ℤ) (hk : -1022 ≤ k)
    (h : a < (2 : ℚ) ^ (k + 1)) : expo64 a ≤ k := by
  have := ilog2_lt_of_lt a ha (k + 1) h
  unfold expo64
  exact max_le (by omega) hk

theorem expo64_eq (a : ℚ) (e : ℤ) (he : -1022 ≤ e) (h1 : (2 : ℚ) ^ e ≤ a)
    (h2 : a < (2 : ℚ) ^ (e + 1)) : expo64 a = e := by
  unfold expo64
  rw [ilog2_unique a e h1 h2]
  exact max_eq_left he

theorem rnd_natCast (n : ℕ) (h : n ≤ 2 ^ 53) : rnd (n : ℚ) = (n : ℚ) := by
  rcases Nat.eq_zero_or_pos n with h0 | hpos
  · subst h0; simp [rnd_zero]
  have ha : (0 : ℚ) < (n : ℚ) := by exact_mod_cast hpos
  rw [rnd_of_pos _ ha]
  have hn1 : (2 : ℚ) ^ (0 : ℤ) ≤ (n : ℚ) := by
    rw [zpow_zero]; exact_mod_cast hpos
  have hn53 : (n : ℚ) ≤ (2 : ℚ) ^ (53 : ℤ) := by
    have : ((2 : ℚ) ^ (53 : ℤ)) = ((2 ^ 53 : ℕ) : ℚ) := by norm_num
    rw [this]; exact_mod_cast h
  have hi0 : 0 ≤ ilog2 (n : ℚ) := le_ilog2_of_le _ ha 0 hn1
  have hi53 : ilog2 (n : ℚ) ≤ 53 := by
    obtain ⟨s1, _⟩ := ilog2_spec _ ha
    exact (zpow_le_zpow_iff_right₀ (by norm_num : (1 : ℚ) < 2)).mp (le_trans s1 hn53)
  have he : expo64 (n : ℚ) = ilog2 (n : ℚ) := by
    unfold expo64; exact max_eq_left (by omega)
  rcases lt_or_eq_of_le hi53 with hlt | heq
  · obtain ⟨j, hj⟩ := Int.eq_ofNat_of_zero_le (show 0 ≤ 52 - ilog2 (n : ℚ) by omega)
    apply rndPos_fix _ ((n : ℤ) * 2 ^ j)
    rw [he, hj, zpow_natCast]
    push_cast
    ring
  · have hn : (n : ℚ) = (2 : ℚ) ^ (53 : ℤ) := by
      obtain ⟨s1, _⟩ := ilog2_spec _ ha
      rw [heq] at s1
      exact le_antisymm hn53 s1
    apply rndPos_fix _ (2 ^ 52)
    rw [he, heq, hn]
    norm_num

theorem rndPos_err (a : ℚ) :
    rndPos a - a ≤ (2 : ℚ) ^ (expo64 a - 53) ∧ a - rndPos a ≤ (2 : ℚ) ^ (expo64 a - 53) := by
  have e1 : (2 : ℚ) ^ (expo64 a - 53) = (1 / 2) * (2 : ℚ) ^ (expo64 a - 52) := by
    have : expo64 a - 53 = (-1) + (expo64 a - 52) := by ring
    rw [this, zpow_add₀ (by norm_num : (2 : ℚ) ≠ 0)]
    norm_num
  have e2 : a = a * (2 : ℚ) ^ (52 - expo64 a) * (2 : ℚ) ^ (expo64 a - 52) := by
    rw [mul_assoc, zpow_mul_cancel, mul_one]
  have hp := two_zpow_pos (expo64 a - 52)
  have h1 := roundHalfEven_sub_le (a * (2 : ℚ) ^ (52 - expo64 a))
  have h2 := sub_roundHalfEven_le (a * (2 : ℚ) ^ (52 - expo64 a))
  have e3 : a * (2 : ℚ) ^ (52 - expo64 a) * (2 : ℚ) ^ (expo64 a - 52) = a := e2.symm
  rw [rndPos_eq, e1]
  constructor
  · have : (roundHalfEven (a * (2 : ℚ) ^ (52 - expo64 a)) : ℚ) * (2 : ℚ) ^ (expo64 a - 52) - a
        = ((roundHalfEven (a * (2 : ℚ) ^ (52 - expo64 a)) : ℚ) - a * (2 : ℚ) ^ (52 - expo64 a))
            * (2 : ℚ) ^ (expo64 a - 52) := by
      rw [sub_mul, e3]
    rw [this]
    exact mul_le_mul_of_nonneg_right h1 hp.le
  · have : a - (roundHalfEven (a * (2 : ℚ) ^ (52 - expo64 a)) : ℚ) * (2 : ℚ) ^ (expo64 a - 52)
        = (a * (2 : ℚ) ^ (52 - expo64 a) - (roundHalfEven (a * (2 : ℚ) ^ (52 - expo64 a)) : ℚ))
            * (2 : ℚ) ^ (expo64 a - 52) := by
      rw [sub_mul, e3]
    rw [this]
    exact mul_le_mul_of_nonneg_right h2 hp.le

theorem expo64_rndPos (a : ℚ) (ha : 0 < a) (hr : 0 < rndPos a) :
    (rndPos a < (2 : ℚ) ^ (expo64 a + 1) ∧ expo64 (rndPos a) = expo64 a) ∨
    (rndPos a = (2 : ℚ) ^ (expo64 a + 1) ∧ expo64 (rndPos a) = expo64 a + 1) := by
  rcases lt_or_eq_of_le (rndPos_le_top a ha) with hlt | heq
  · left
    refine ⟨hlt, ?_⟩
    rcases lt_or_eq_of_le (expo64_ge a) with hn | hs
    · exact expo64_eq _ _ (expo64_ge a) (rndPos_ge_bottom a ha hn) hlt
    · apply le_antisymm
      · exact expo64_le_of_lt _ hr _ (expo64_ge a) hlt
      · rw [← hs]; exact expo64_ge _
  · right
    refine ⟨heq, ?_⟩
    apply expo64_eq _ _ (by have := expo64_ge a; omega)
    · rw [heq]
    · rw [heq]
      exact zpow_lt_zpow_right₀ (by norm_num) (by omega)

theorem rndPos_idem (a : ℚ) (ha : 0 < a) (hr : 0 < rndPos a) : rndPos (rndPos a) = rndPos a := by
  rcases expo64_rndPos a ha hr with ⟨_, he⟩ | ⟨hv, he⟩
  · apply rndPos_fix _ (roundHalfEven (a * (2 : ℚ) ^ (52 - expo64 a)))
    rw [he]
    nth_rewrite 1 [rndPos_eq]
    rw [mul_assoc, mul_comm ((2 : ℚ) ^ (expo64 a - 52)), zpow_mul_cancel, mul_one]
  · apply rndPos_fix _ (2 ^ 52)
    rw [he, hv, ← zpow_add₀ (by norm_num : (2 : ℚ) ≠ 0)]
    have : expo64 a + 1 + (52 - (expo64 a + 1)) = 52 := by ring
    rw [this]
    norm_num

theorem rnd_idem (q : ℚ) : rnd (rnd q) = rnd q := by
  have pos : ∀ a : ℚ, 0 < a → rnd (rnd a) = rnd a := by
    intro a ha
    rw [rnd_of_pos a ha]
    rcases lt_or_eq_of_le (rndPos_nonneg a ha) with h | h
    · rw [rnd_of_pos _ h, rndPos_idem a ha h]
    · rw [← h, rnd_zero]
  rcases lt_trichotomy q 0 with h | h | h
  · have := pos (-q) (by linarith)
    rw [rnd_neg, rnd_neg] at this
    linarith
  · rw [h, rnd_zero, rnd_zero]
  · exact pos q h

theorem testInvalids_of_valid {v : RDouble} (h : ValidTruth v) : testInvalids v = .ok () := by
  cases v with
  | num q =>
    obtain ⟨h0, h1⟩ := h
    simp [testInvalids, RDouble.lt, RDouble.gt, R_IsNaN, not_lt.mpr h0, not_lt.mpr h1]
  | na => simp [testInvalids, RDouble.lt, RDouble.gt, R_IsNaN]
  | posInf => exact absurd h (by simp [ValidTruth])
  | negInf => exact absurd h (by simp [ValidTruth])
  | nan => exact absurd h (by simp [ValidTruth])

theorem validTruth_of_validNumber {v : RDouble} (h : ValidNumber v) : ValidTruth v := by
  cases v <;> simp_all [ValidNumber, ValidTruth]

theorem goedel_tnorm_loop_valid (vals : List RDouble) (h : ∀ v ∈ vals, ValidTruth v)
    (r : ℚ) (b : Bool) :
    goedel_tnorm_loop vals (.num r) b =
      .ok (.num ((nonMissing vals).foldl min r), b || hasMissing vals) := by
  induction vals generalizing r b with
  | nil => simp [goedel_tnorm_loop, nonMissing, hasMissing]
  | cons v vs ih =>
    have hv : ValidTruth v := h v (List.mem_cons_self v vs)
    have hvs : ∀ w ∈ vs, ValidTruth w := fun w hw => h w (List.mem_cons_of_mem v hw)
    have ht := testInvalids_of_valid hv
    cases v with
    | num q =>
      by_cases hq : q < r
      · simp [goedel_tnorm_loop, ht, R_IsNA, RDouble.lt, hq, ih hvs, nonMissing, hasMissing,
          min_eq_right hq.le]
      · simp [goedel_tnorm_loop, ht, R_IsNA, RDouble.lt, hq, ih hvs, nonMissing, hasMissing,
          min_eq_left (not_lt.mp hq)]
    | na => simp [goedel_tnorm_loop, ht, R_IsNA, ih hvs, nonMissing, hasMissing]
    | posInf => exact absurd hv (by simp [ValidTruth])
    | negInf => exact absurd hv (by simp [ValidTruth])
    | nan => exact absurd hv (by simp [ValidTruth])

theorem foldl_min_eq (qs : List ℚ) (r : ℚ) (hr : r ≤ 1) :
    qs.foldl min r = min r (qs.foldr min 1) := by
  induction qs generalizing r with
  | nil => simp [hr]
  | cons q qs ih =>
    simp only [List.foldl_cons, List.foldr_cons]
    rw [ih (min r q) (le_trans (min_le_left r q) hr), min_assoc]

theorem foldl_min_one (qs : List ℚ) : qs.foldl min 1 = qs.foldr min 1 := by
  rw [foldl_min_eq qs 1 le_rfl]
  apply min_eq_right
  induction qs with
  | nil => simp
  | cons q qs ih => simp only [List.foldr_cons]; exact le_trans (min_le_right _ _) ih

theorem goedel_tnorm_valid (vals : List RDouble) (h : ∀ v ∈ vals, ValidTruth v)
    (naRm : Bool) :
    goedel_tnorm vals naRm =
      if !naRm && hasMissing vals && decide (0 < minWithOne vals) then .ok .na
      else .ok (.num (minWithOne vals)) := by
  simp [goedel_tnorm, goedel_tnorm_loop_valid vals h, foldl_min_one, minWithOne, RDouble.gt,
    RDouble.lt]

theorem goedel_tconorm_loop_valid (vals : List RDouble) (h : ∀ v ∈ vals, ValidTruth v)
    (r : ℚ) (b : Bool) :
    goedel_tconorm_loop vals (.num r) b =
      .ok (.num ((nonMissing vals).foldl max r), b || hasMissing vals) := by
  induction vals generalizing r b with
  | nil => simp [goedel_tconorm_loop, nonMissing, hasMissing]
  | cons v vs ih =>
    have hv : ValidTruth v := h v (List.mem_cons_self v vs)
    have hvs : ∀ w ∈ vs, ValidTruth w := fun w hw => h w (List.mem_cons_of_mem v hw)
    have ht := testInvalids_of_valid hv
    cases v with
    | num q =>
      by_cases hq : r < q
      · simp [goedel_tconorm_loop, ht, R_IsNA, RDouble.lt, RDouble.gt, hq, ih hvs, nonMissing,
          hasMissing, max_eq_right hq.le]
      · simp [goedel_tconorm_loop, ht, R_IsNA, RDouble.lt, RDouble.gt, hq, ih hvs, nonMissing,
          hasMissing, max_eq_left (not_lt.mp hq)]
    | na => simp [goedel_tconorm_loop, ht, R_IsNA, ih hvs, nonMissing, hasMissing]
    | posInf => exact absurd hv (by simp [ValidTruth])
    | negInf => exact absurd hv (by simp [ValidTruth])
    | nan => exact absurd hv (by simp [ValidTruth])

theorem goedel_tconorm_valid (vals : List RDouble) (h : ∀ v ∈ vals, ValidTruth v)
    (naRm : Bool) :
    goedel_tconorm vals naRm =
      if !naRm && hasMissing vals && decide ((nonMissing vals).foldl max 0 < 1) then .ok .na
      else .ok (.num ((nonMissing vals).foldl max 0)) := by
  simp [goedel_tconorm, goedel_tconorm_loop_valid vals h, RDouble.lt]

theorem hasMissing_of_validNumber (vals : List RDouble) (h : ∀ v ∈ vals, ValidNumber v) :
    hasMissing vals = false := by
  induction vals with
  | nil => rfl
  | cons v vs ih =>
    have hv : ValidNumber v := h v (List.mem_cons_self v vs)
    have hvs : ∀ w ∈ vs, ValidNumber w := fun w hw => h w (List.mem_cons_of_mem v hw)
    cases v <;> simp_all [hasMissing, ValidNumber]

theorem nonMissing_bounds (vals : List RDouble) (h : ∀ v ∈ vals, ValidTruth v) :
    ∀ q ∈ nonMissing vals, 0 ≤ q ∧ q ≤ 1 := by
  induction vals with
  | nil => simp [nonMissing]
  | cons v vs ih =>
    have hv : ValidTruth v := h v (List.mem_cons_self v vs)
    have hvs : ∀ w ∈ vs, ValidTruth w := fun w hw => h w (List.mem_cons_of_mem v hw)
    cases v with
    | num q =>
      intro p hp
      simp only [nonMissing, List.mem_cons] at hp
      rcases hp with rfl | hp
      · exact hv
      · exact ih hvs p hp
    | na => simpa [nonMissing] using ih hvs
    | posInf => exact absurd hv (by simp [ValidTruth])
    | negInf => exact absurd hv (by simp [ValidTruth])
    | nan => exact absurd hv (by simp [ValidTruth])

theorem foldr_min_bounds (qs : List ℚ) (h : ∀ q ∈ qs, 0 ≤ q ∧ q ≤ 1) :
    0 ≤ qs.foldr min 1 ∧ qs.foldr min 1 ≤ 1 := by
  induction qs with
  | nil => simp
  | cons q qs ih =>
    have hq := h q (List.mem_cons_self q qs)
    have ih2 := ih (fun p hp => h p (List.mem_cons_of_mem q hp))
    simp only [List.foldr_cons]
    exact ⟨le_min hq.1 ih2.1, le_trans (min_le_left _ _) hq.2⟩

theorem foldl_max_bounds (qs : List ℚ) (h : ∀ q ∈ qs, 0 ≤ q ∧ q ≤ 1) (r : ℚ)
    (hr : 0 ≤ r ∧ r ≤ 1) : 0 ≤ qs.foldl max r ∧ qs.foldl max r ≤ 1 := by
  induction qs generalizing r with
  | nil => simpa using hr
  | cons q qs ih =>
    have hq := h q (List.mem_cons_self q qs)
    simp only [List.foldl_cons]
    exact ih (fun p hp => h p (List.mem_cons_of_mem q hp)) (max r q)
      ⟨le_trans hr.1 (le_max_left _ _), max_le hr.2 hq.2⟩

theorem residuum_operands_single (x z : ℚ) (hx : 0 ≤ x ∧ x ≤ 1) (hz : 0 ≤ z ∧ z ≤ 1) :
    residuum_operands [.num x] [.num z] 0 = .ok (.num x, .num z) := by
  have h1 : testInvalids (.num x) = .ok () := testInvalids_of_valid hx
  have h2 : testInvalids (.num z) = .ok () := testInvalids_of_valid hz
  simp [residuum_operands, h1, h2]

theorem goedel_residuum_single (x z : ℚ) (hx : 0 ≤ x ∧ x ≤ 1) (hz : 0 ≤ z ∧ z ≤ 1) :
    goedel_residuum [.num x] [.num z] =
      .ok [.num (if x = 0 then 1 else if x ≤ z then 1 else z)] := by
  simp only [goedel_residuum, List.length_singleton, gt_iff_lt, lt_self_iff_false, if_false,
    List.range_succ, List.range_zero, List.nil_append, residuum_loop, goedel_residuum_body,
    residuum_operands_single x z hx hz, RDouble.eq, RDouble.le, RDouble.lt, R_IsNA]
  by_cases h0 : x = 0
  · simp [h0]
  · by_cases h1 : x ≤ z
    · simp [h0, h1, le_iff_lt_or_eq.mp h1]
    · simp [h0, h1, not_or.mp (mt le_iff_lt_or_eq.mpr h1)]

theorem valid_pair (x y : ℚ) (hx : 0 ≤ x ∧ x ≤ 1) (hy : 0 ≤ y ∧ y ≤ 1) :
    ∀ v ∈ [RDouble.num x, RDouble.num y], ValidTruth v := by
  intro v hv
  simp only [List.mem_cons, List.mem_singleton, List.not_mem_nil, or_false] at hv
  rcases hv with rfl | rfl <;> assumption

theorem goedel_tnorm_pair (x y : ℚ) (hx : 0 ≤ x ∧ x ≤ 1) (hy : 0 ≤ y ∧ y ≤ 1) (f : Bool) :
    goedel_tnorm [.num x, .num y] f = .ok (.num (min x y)) := by
  rw [goedel_tnorm_valid _ (valid_pair x y hx hy)]
  simp [hasMissing, minWithOne, nonMissing, min_eq_left hy.2]

theorem residuum_loop_ok (body : Nat → Except RError RDouble) (g : Nat → RDouble)
    (is : List Nat) (h : ∀ i ∈ is, body i = .ok (g i)) :
    residuum_loop body is = .ok (is.map g) := by
  induction is with
  | nil => rfl
  | cons i rest ih =>
    simp [residuum_loop, h i (List.mem_cons_self i rest),
      ih (fun j hj => h j (List.mem_cons_of_mem i hj))]

theorem residuum_operands_valid (x y : List RDouble) (hx : 0 < x.length) (hy : 0 < y.length)
    (vx : ∀ v ∈ x, ValidTruth v) (vy : ∀ v ∈ y, ValidTruth v) (i : Nat) :
    residuum_operands x y i =
      .ok (x.get ⟨i % x.length, Nat.mod_lt i hx⟩, y.get ⟨i % y.length, Nat.mod_lt i hy⟩) := by
  have h1 := testInvalids_of_valid (vx _ (List.get_mem x (i % x.length) (Nat.mod_lt i hx)))
  have h2 := testInvalids_of_valid (vy _ (List.get_mem y (i % y.length) (Nat.mod_lt i hy)))
  simp only [residuum_operands, Nat.ne_of_gt hx, Nat.ne_of_gt hy, dite_false, h1, h2]

theorem goedel_residuum_body_valid (x y : List RDouble) (hx : 0 < x.length)
    (hy : 0 < y.length) (vx : ∀ v ∈ x, ValidTruth v) (vy : ∀ v ∈ y, ValidTruth v) (i : Nat) :
    goedel_residuum_body x y i =
      .ok (residuum_rule goedel_last (x.get ⟨i % x.length, Nat.mod_lt i hx⟩)
        (y.get ⟨i % y.length, Nat.mod_lt i hy⟩)) := by
  simp only [goedel_residuum_body, residuum_operands_valid x y hx hy vx vy i, residuum_rule,
    goedel_last]
  split_ifs <;> rfl

theorem lukas_residuum_body_valid (x y : List RDouble) (hx : 0 < x.length)
    (hy : 0 < y.length) (vx : ∀ v ∈ x, ValidTruth v) (vy : ∀ v ∈ y, ValidTruth v) (i : Nat) :
    lukas_residuum_body x y i =
      .ok (residuum_rule lukas_last (x.get ⟨i % x.length, Nat.mod_lt i hx⟩)
        (y.get ⟨i % y.length, Nat.mod_lt i hy⟩)) := by
  simp only [lukas_residuum_body, residuum_operands_valid x y hx hy vx vy i, residuum_rule,
    lukas_last]
  split_ifs <;> rfl

theorem goguen_residuum_body_valid (x y : List RDouble) (hx : 0 < x.length)
    (hy : 0 < y.length) (vx : ∀ v ∈ x, ValidTruth v) (vy : ∀ v ∈ y, ValidTruth v) (i : Nat) :
    goguen_residuum_body x y i =
      .ok (residuum_rule goguen_last (x.get ⟨i % x.length, Nat.mod_lt i hx⟩)
        (y.get ⟨i % y.length, Nat.mod_lt i hy⟩)) := by
  simp only [goguen_residuum_body, residuum_operands_valid x y hx hy vx vy i, residuum_rule,
    goguen_last]
  split_ifs <;> rfl

theorem valid_singleton {v : RDouble} (h : ValidTruth v) : ∀ w ∈ [v], ValidTruth w := by
  intro w hw
  rw [List.mem_singleton] at hw
  rw [hw]; exact h

theorem goedel_residuum_one (xv yv : RDouble) (hx : ValidTruth xv) (hy : ValidTruth yv) :
    goedel_residuum [xv] [yv] = .ok [residuum_rule goedel_last xv yv] := by
  have hb := goedel_residuum_body_valid [xv] [yv] Nat.one_pos Nat.one_pos
    (valid_singleton hx) (valid_singleton hy) 0
  simp only [goedel_residuum, List.length_singleton, gt_iff_lt, lt_self_iff_false, if_false,
    List.range_succ, List.range_zero, List.nil_append, residuum_loop, hb]
  rfl

theorem lukas_residuum_one (xv yv : RDouble) (hx : ValidTruth xv) (hy : ValidTruth yv) :
    lukas_residuum [xv] [yv] = .ok [residuum_rule lukas_last xv yv] := by
  have hb := lukas_residuum_body_valid [xv] [yv] Nat.one_pos Nat.one_pos
    (valid_singleton hx) (valid_singleton hy) 0
  simp only [lukas_residuum, List.length_singleton, gt_iff_lt, lt_self_iff_false, if_false,
    List.range_succ, List.range_zero, List.nil_append, residuum_loop, hb]
  rfl

theorem goguen_residuum_one (xv yv : RDouble) (hx : ValidTruth xv) (hy : ValidTruth yv) :
    goguen_residuum [xv] [yv] = .ok [residuum_rule goguen_last xv yv] := by
  have hb := goguen_residuum_body_valid [xv] [yv] Nat.one_pos Nat.one_pos
    (valid_singleton hx) (valid_singleton hy) 0
  simp only [goguen_residuum, List.length_singleton, gt_iff_lt, lt_self_iff_false, if_false,
    List.range_succ, List.range_zero, List.nil_append, residuum_loop, hb]
  rfl

theorem residuum_length_eq_max (a b : Nat) : (if a > b then a else b) = max a b := by
  by_cases h : a > b
  · rw [if_pos h, max_eq_left h.le]
  · rw [if_neg h, max_eq_right (not_lt.mp h)]

theorem goedel_residuum_valid (x y : List RDouble) (hx : 0 < x.length) (hy : 0 < y.length)
    (vx : ∀ v ∈ x, ValidTruth v) (vy : ∀ v ∈ y, ValidTruth v) :
    goedel_residuum x y =
      .ok ((List.range (max x.length y.length)).map (fun i =>
        residuum_rule goedel_last (x.get ⟨i % x.length, Nat.mod_lt i hx⟩)
          (y.get ⟨i % y.length, Nat.mod_lt i hy⟩))) := by
  simp only [goedel_residuum, residuum_length_eq_max]
  exact residuum_loop_ok _ _ _ (fun i _ => goedel_residuum_body_valid x y hx hy vx vy i)

theorem lukas_residuum_valid (x y : List RDouble) (hx : 0 < x.length) (hy : 0 < y.length)
    (vx : ∀ v ∈ x, ValidTruth v) (vy : ∀ v ∈ y, ValidTruth v) :
    lukas_residuum x y =
      .ok ((List.range (max x.length y.length)).map (fun i =>
        residuum_rule lukas_last (x.get ⟨i % x.length, Nat.mod_lt i hx⟩)
          (y.get ⟨i % y.length, Nat.mod_lt i hy⟩))) := by
  simp only [lukas_residuum, residuum_length_eq_max]
  exact residuum_loop_ok _ _ _ (fun i _ => lukas_residuum_body_valid x y hx hy vx vy i)

theorem goguen_residuum_valid (x y : List RDouble) (hx : 0 < x.length) (hy : 0 < y.length)
    (vx : ∀ v ∈ x, ValidTruth v) (vy : ∀ v ∈ y, ValidTruth v) :
    goguen_residuum x y =
      .ok ((List.range (max x.length y.length)).map (fun i =>
        residuum_rule goguen_last (x.get ⟨i % x.length, Nat.mod_lt i hx⟩)
          (y.get ⟨i % y.length, Nat.mod_lt i hy⟩))) := by
  simp only [goguen_residuum, residuum_length_eq_max]
  exact residuum_loop_ok _ _ _ (fun i _ => goguen_residuum_body_valid x y hx hy vx vy i)

theorem valid_of_two {a b : RDouble} (ha : ValidTruth a) (hb : ValidTruth b) :
    ∀ v ∈ [a, b], ValidTruth v := by
  intro v hv
  simp only [List.mem_cons, List.mem_singleton, List.not_mem_nil, or_false] at hv
  rcases hv with rfl | rfl <;> assumption

theorem firstRejection_some_iff (xs : List RDouble) (e : RError) :
    firstRejection xs = some e ↔ FirstRejectedWith xs e := by
  induction xs with
  | nil =>
    constructor
    · intro h; exact absurd h (by simp [firstRejection])
    · rintro ⟨pre, v, post, h, _⟩
      exact absurd h (by simp)
  | cons w ws ih =>
    cases hw : testInvalids w with
    | error e2 =>
      simp only [firstRejection, hw, Option.some.injEq]
      constructor
      · rintro rfl
        exact ⟨[], w, ws, rfl, by simp, hw⟩
      · rintro ⟨pre, v, post, h, hpre, hv⟩
        cases pre with
        | nil =>
          simp only [List.nil_append, List.cons.injEq] at h
          rw [← h.1, hw] at hv
          exact Except.error.inj hv
        | cons p ps =>
          simp only [List.cons_append, List.cons.injEq] at h
          have := hpre p (List.mem_cons_self p ps)
          rw [← h.1, hw] at this
          exact absurd this (by simp)
    | ok u =>
      simp only [firstRejection, hw, ih]
      constructor
      · rintro ⟨pre, v, post, h, hpre, hv⟩
        refine ⟨w :: pre, v, post, by rw [h]; rfl, ?_, hv⟩
        intro z hz
        rcases List.mem_cons.mp hz with rfl | hz
        · exact hw
        · exact hpre z hz
      · rintro ⟨pre, v, post, h, hpre, hv⟩
        cases pre with
        | nil =>
          simp only [List.nil_append, List.cons.injEq] at h
          rw [← h.1, hw] at hv
          exact absurd hv (by simp)
        | cons p ps =>
          simp only [List.cons_append, List.cons.injEq] at h
          exact ⟨ps, v, post, h.2, fun z hz => hpre z (List.mem_cons_of_mem p hz), hv⟩

theorem firstRejection_none_iff (xs : List RDouble) :
    firstRejection xs = none ↔ ∀ v ∈ xs, testInvalids v = .ok () := by
  induction xs with
  | nil => simp [firstRejection]
  | cons w ws ih =>
    cases hw : testInvalids w with
    | error e2 => simp [firstRejection, hw]
    | ok u => simp [firstRejection, hw, ih]

theorem loop_outcome (loop : List RDouble → RDouble → Bool → Except RError (RDouble × Bool))
    (hnil : ∀ res na, loop [] res na = .ok (res, na))
    (hcons : ∀ v vs res na,
      (∀ e, testInvalids v = .error e → loop (v :: vs) res na = .error e) ∧
      (testInvalids v = .ok () → ∃ res2 na2, loop (v :: vs) res na = loop vs res2 na2))
    (vals : List RDouble) (res : RDouble) (na : Bool) :
    (∀ e, firstRejection vals = some e → loop vals res na = .error e) ∧
    (firstRejection vals = none → ∃ p, loop vals res na = .ok p) := by
  induction vals generalizing res na with
  | nil => exact ⟨fun e h => absurd h (by simp [firstRejection]), fun _ => ⟨_, hnil res na⟩⟩
  | cons v vs ih =>
    cases hv : testInvalids v with
    | error e2 =>
      refine ⟨fun e h => ?_, fun h => absurd h (by simp [firstRejection, hv])⟩
      simp only [firstRejection, hv, Option.some.injEq] at h
      rw [← h]
      exact (hcons v vs res na).1 e2 hv
    | ok u =>
      obtain ⟨res2, na2, hstep⟩ := (hcons v vs res na).2 hv
      rw [hstep]
      simpa only [firstRejection, hv] using ih res2 na2

theorem outcome_iff {α : Type} (o : Except RError α) (xs : List RDouble)
    (h1 : ∀ e, firstRejection xs = some e → o = .error e)
    (h2 : firstRejection xs = none → ∃ r, o = .ok r) :
    ((∃ e, o = .error e) ↔ ∃ v ∈ xs, testInvalids v ≠ .ok ()) ∧
    ∀ e, o = .error e ↔ FirstRejectedWith xs e := by
  have key : ∀ e, o = .error e ↔ firstRejection xs = some e := by
    intro e
    cases hf : firstRejection xs with
    | none =>
      obtain ⟨r, hr⟩ := h2 hf
      simp [hr]
    | some e2 =>
      rw [h1 e2 hf]
      simp
  refine ⟨?_, fun e => (key e).trans (firstRejection_some_iff xs e)⟩
  constructor
  · rintro ⟨e, he⟩
    by_contra hcon
    have hall : ∀ v ∈ xs, testInvalids v = .ok () := by
      intro v hv
      by_contra hne
      exact hcon ⟨v, hv, hne⟩
    have := (firstRejection_none_iff xs).mpr hall
    rw [(key e).mp he] at this
    exact absurd this (by simp)
  · rintro ⟨v, hv, hne⟩
    cases hf : firstRejection xs with
    | none => exact absurd ((firstRejection_none_iff xs).mp hf v hv) hne
    | some e2 => exact ⟨e2, h1 e2 hf⟩

theorem goedel_tnorm_loop_step (v : RDouble) (vs : List RDouble) (res : RDouble) (na : Bool) :
    (∀ e, testInvalids v = .error e → goedel_tnorm_loop (v :: vs) res na = .error e) ∧
    (testInvalids v = .ok () →
      ∃ res2 na2, goedel_tnorm_loop (v :: vs) res na = goedel_tnorm_loop vs res2 na2) := by
  constructor
  · intro e h
    simp [goedel_tnorm_loop, h]
  · intro h
    simp only [goedel_tnorm_loop, h]
    split_ifs <;> exact ⟨_, _, rfl⟩

theorem goedel_tnorm_aborts : ValidationAborts goedel_tnorm := by
  intro xs f
  obtain ⟨h1, h2⟩ := loop_outcome goedel_tnorm_loop (fun _ _ => rfl) goedel_tnorm_loop_step xs
    (.num 1) false
  apply outcome_iff
  · intro e he
    simp [goedel_tnorm, h1 e he]
  · intro hn
    obtain ⟨p, hp⟩ := h2 hn
    simp only [goedel_tnorm, hp]
    split_ifs <;> exact ⟨_, rfl⟩

theorem lukas_tnorm_loop_step (v : RDouble) (vs : List RDouble) (res : RDouble) (na : Bool) :
    (∀ e, testInvalids v = .error e → lukas_tnorm_loop (v :: vs) res na = .error e) ∧
    (testInvalids v = .ok () →
      ∃ res2 na2, lukas_tnorm_loop (v :: vs) res na = lukas_tnorm_loop vs res2 na2) := by
  constructor
  · intro e h
    simp [lukas_tnorm_loop, h]
  · intro h
    simp only [lukas_tnorm_loop, h]
    split_ifs <;> exact ⟨_, _, rfl⟩

theorem lukas_tnorm_aborts : ValidationAborts lukas_tnorm := by
  intro xs f
  obtain ⟨h1, h2⟩ := loop_outcome lukas_tnorm_loop (fun _ _ => rfl) lukas_tnorm_loop_step xs
    (.num 1) false
  apply outcome_iff
  · intro e he
    simp [lukas_tnorm, h1 e he]
  · intro hn
    obtain ⟨p, hp⟩ := h2 hn
    simp only [lukas_tnorm, hp]
    split_ifs <;> exact ⟨_, rfl⟩

theorem goguen_tnorm_loop_step (v : RDouble) (vs : List RDouble) (res : RDouble) (na : Bool) :
    (∀ e, testInvalids v = .error e → goguen_tnorm_loop (v :: vs) res na = .error e) ∧
    (testInvalids v = .ok () →
      ∃ res2 na2, goguen_tnorm_loop (v :: vs) res na = goguen_tnorm_loop vs res2 na2) := by
  constructor
  · intro e h
    simp [goguen_tnorm_loop, h]
  · intro h
    simp only [goguen_tnorm_loop, h]
    split_ifs <;> exact ⟨_, _, rfl⟩

theorem goguen_tnorm_aborts : ValidationAborts goguen_tnorm := by
  intro xs f
  obtain ⟨h1, h2⟩ := loop_outcome goguen_tnorm_loop (fun _ _ => rfl) goguen_tnorm_loop_step xs
    (.num 1) false
  apply outcome_iff
  · intro e he
    simp [goguen_tnorm, h1 e he]
  · intro hn
    obtain ⟨p, hp⟩ := h2 hn
    simp only [goguen_tnorm, hp]
    split_ifs <;> exact ⟨_, rfl⟩

theorem goedel_tconorm_loop_step (v : RDouble) (vs : List RDouble) (res : RDouble) (na : Bool) :
    (∀ e, testInvalids v = .error e → goedel_tconorm_loop (v :: vs) res na = .error e) ∧
    (testInvalids v = .ok () →
      ∃ res2 na2, goedel_tconorm_loop (v :: vs) res na = goedel_tconorm_loop vs res2 na2) := by
  constructor
  · intro e h
    simp [goedel_tconorm_loop, h]
  · intro h
    simp only [goedel_tconorm_loop, h]
    split_ifs <;> exact ⟨_, _, rfl⟩

theorem goedel_tconorm_aborts : ValidationAborts goedel_tconorm := by
  intro xs f
  obtain ⟨h1, h2⟩ := loop_outcome goedel_tconorm_loop (fun _ _ => rfl) goedel_tconorm_loop_step xs
    (.num 0) false
  apply outcome_iff
  · intro e he
    simp [goedel_tconorm, h1 e he]
  · intro hn
    obtain ⟨p, hp⟩ := h2 hn
    simp only [goedel_tconorm, hp]
    split_ifs <;> exact ⟨_, rfl⟩

theorem lukas_tconorm_loop_step (v : RDouble) (vs : List RDouble) (res : RDouble) (na : Bool) :
    (∀ e, testInvalids v = .error e → lukas_tconorm_loop (v :: vs) res na = .error e) ∧
    (testInvalids v = .ok () →
      ∃ res2 na2, lukas_tconorm_loop (v :: vs) res na = lukas_tconorm_loop vs res2 na2) := by
  constructor
  · intro e h
    simp [lukas_tconorm_loop, h]
  · intro h
    simp only [lukas_tconorm_loop, h]
    split_ifs <;> exact ⟨_, _, rfl⟩

theorem lukas_tconorm_aborts : ValidationAborts lukas_tconorm := by
  intro xs f
  obtain ⟨h1, h2⟩ := loop_outcome lukas_tconorm_loop (fun _ _ => rfl) lukas_tconorm_loop_step xs
    (.num 0) false
  apply outcome_iff
  · intro e he
    simp [lukas_tconorm, h1 e he]
  · intro hn
    obtain ⟨p, hp⟩ := h2 hn
    simp only [lukas_tconorm, hp]
    split_ifs <;> exact ⟨_, rfl⟩

theorem goguen_tconorm_loop_step (v : RDouble) (vs : List RDouble) (res : RDouble) (na : Bool) :
    (∀ e, testInvalids v = .error e → goguen_tconorm_loop (v :: vs) res na = .error e) ∧
    (testInvalids v = .ok () →
      ∃ res2 na2, goguen_tconorm_loop (v :: vs) res na = goguen_tconorm_loop vs res2 na2) := by
  constructor
  · intro e h
    simp [goguen_tconorm_loop, h]
  · intro h
    simp only [goguen_tconorm_loop, h]
    split_ifs <;> exact ⟨_, _, rfl⟩

theorem goguen_tconorm_aborts : ValidationAborts goguen_tconorm := by
  intro xs f
  obtain ⟨h1, h2⟩ := loop_outcome goguen_tconorm_loop (fun _ _ => rfl) goguen_tconorm_loop_step xs
    (.num 0) false
  apply outcome_iff
  · intro e he
    simp [goguen_tconorm, h1 e he]
  · intro hn
    obtain ⟨p, hp⟩ := h2 hn
    simp only [goguen_tconorm, hp]
    split_ifs <;> exact ⟨_, rfl⟩

theorem strict_neg_valid (vals : List RDouble) (h : ∀ v ∈ vals, ValidTruth v) :
    strict_neg vals = .ok (vals.map strict_neg_value) := by
  induction vals with
  | nil => rfl
  | cons v vs ih =>
    have hv : ValidTruth v := h v (List.mem_cons_self v vs)
    have hvs : ∀ w ∈ vs, ValidTruth w := fun w hw => h w (List.mem_cons_of_mem v hw)
    simp [strict_neg, testInvalids_of_valid hv, ih hvs]

theorem strict_neg_value_eq_spec (v : RDouble) : strict_neg_value v = strictNegSpec v := by
  cases v with
  | num q => by_cases h0 : q = 0 <;> simp [strict_neg_value, strictNegSpec, R_IsNA, RDouble.eq, h0]
  | na => simp [strict_neg_value, strictNegSpec, R_IsNA]
  | posInf => simp [strict_neg_value, strictNegSpec, R_IsNA, RDouble.eq]
  | negInf => simp [strict_neg_value, strictNegSpec, R_IsNA, RDouble.eq]
  | nan => simp [strict_neg_value, strictNegSpec, R_IsNA, RDouble.eq]

theorem removeMissing_facts (vals : List RDouble) (h : ∀ v ∈ vals, ValidTruth v) :
    (∀ v ∈ removeMissing vals, ValidTruth v) ∧
    nonMissing (removeMissing vals) = nonMissing vals ∧
    hasMissing (removeMissing vals) = false ∧
    countMissing (removeMissing vals) = 0 ∧
    ((removeMissing vals).length : ℚ) = (vals.length : ℚ) - (countMissing vals : ℚ) := by
  induction vals with
  | nil => simp [removeMissing, nonMissing, hasMissing, countMissing]
  | cons v vs ih =>
    have hv : ValidTruth v := h v (List.mem_cons_self v vs)
    obtain ⟨i1, i2, i3, i4, i5⟩ := ih (fun w hw => h w (List.mem_cons_of_mem v hw))
    cases v with
    | num q =>
      refine ⟨?_, by simp [removeMissing, nonMissing, i2], by simp [removeMissing, hasMissing, i3],
        by simp [removeMissing, countMissing, i4], ?_⟩
      · intro w hw
        simp only [removeMissing, List.mem_cons] at hw
        rcases hw with rfl | hw
        · exact hv
        · exact i1 w hw
      · simp only [removeMissing, countMissing, List.length_cons, Nat.cast_add, Nat.cast_one, i5]
        ring
    | na =>
      refine ⟨by simpa [removeMissing] using i1, by simp [removeMissing, nonMissing, i2],
        by simp [removeMissing, i3], by simp [removeMissing, i4], ?_⟩
      simp only [removeMissing, countMissing, List.length_cons, Nat.cast_add, Nat.cast_one, i5]
      ring
    | posInf => exact absurd hv (by simp [ValidTruth])
    | negInf => exact absurd hv (by simp [ValidTruth])
    | nan => exact absurd hv (by simp [ValidTruth])

theorem foldl_max_eq (qs : List ℚ) (r : ℚ) (hr : 0 ≤ r) :
    qs.foldl max r = max r (qs.foldr max 0) := by
  induction qs generalizing r with
  | nil => simp [hr]
  | cons q qs ih =>
    simp only [List.foldl_cons, List.foldr_cons]
    rw [ih (max r q) (le_trans hr (le_max_left r q)), max_assoc]

theorem foldl_max_zero (qs : List ℚ) (h : ∀ q ∈ qs, 0 ≤ q ∧ q ≤ 1) :
    qs.foldl max 0 = qs.foldr max 0 := by
  rw [foldl_max_eq qs 0 le_rfl]
  apply max_eq_right
  induction qs with
  | nil => simp
  | cons q qs ih =>
    simp only [List.foldr_cons]
    exact le_trans (h q (List.mem_cons_self q qs)).1 (le_max_left _ _)

theorem fills_of_no_missing (xs xs2 : List RDouble) (hf : FillsMissing xs xs2)
    (hm : hasMissing xs = false) : xs2 = xs := by
  induction hf with
  | nil => rfl
  | @cons v w vs ws hvw _ ih =>
    cases v with
    | na => simp [hasMissing] at hm
    | num q =>
      simp only [hasMissing] at hm
      rw [if_neg (by simp)] at hvw
      rw [hvw, ih hm]
    | posInf =>
      simp only [hasMissing] at hm
      rw [if_neg (by simp)] at hvw
      rw [hvw, ih hm]
    | negInf =>
      simp only [hasMissing] at hm
      rw [if_neg (by simp)] at hvw
      rw [hvw, ih hm]
    | nan =>
      simp only [hasMissing] at hm
      rw [if_neg (by simp)] at hvw
      rw [hvw, ih hm]

theorem rnd_one : rnd 1 = 1 := by decide!

theorem rnd_two : rnd 2 = 2 := by decide!

theorem rnd_two_pow_53_succ : rnd (9007199254740992 + 1) = 9007199254740992 := by decide!

theorem rnd_two_pow_53 : rnd 9007199254740992 = 9007199254740992 := by decide!

theorem rnd_one_add_half_ulp : rnd (1 + 1 / 9007199254740992) = 1 := by decide!

theorem two_pow_53_lt_pow2_1024 : (9007199254740992 : ℚ) < pow2 1024 := by decide!

theorem rnd_le_two_pow_53 (q : ℚ) (h : q ≤ 9007199254740992 + 1) :
    rnd q ≤ 9007199254740992 := by
  have := rnd_mono _ _ h
  rwa [rnd_two_pow_53_succ] at this

theorem rnd_ge_neg_two_pow_53 (q : ℚ) (h : -9007199254740992 ≤ q) :
    -9007199254740992 ≤ rnd q := by
  have := rnd_mono _ _ h
  rwa [rnd_neg, rnd_two_pow_53] at this

theorem round64_of_lt (q : ℚ) (h1 : rnd q < pow2 1024) (h2 : -pow2 1024 < rnd q) :
    round64 q = .num (rnd q) := by
  unfold round64
  rw [if_neg (not_le.mpr h1), if_neg (not_le.mpr h2)]

theorem round64_of_bounds (q : ℚ) (h1 : -9007199254740992 ≤ q)
    (h2 : q ≤ 9007199254740992 + 1) : round64 q = .num (rnd q) := by
  apply round64_of_lt
  · exact lt_of_le_of_lt (rnd_le_two_pow_53 q h2) two_pow_53_lt_pow2_1024
  · have := rnd_ge_neg_two_pow_53 q h1
    have := two_pow_53_lt_pow2_1024
    linarith

theorem add_num (a b : ℚ) (h1 : -9007199254740992 ≤ a + b)
    (h2 : a + b ≤ 9007199254740992 + 1) :
    (RDouble.num a).add (.num b) = .num (rnd (a + b)) := by
  simp only [RDouble.add]
  exact round64_of_bounds _ h1 h2

theorem sub_num (a b : ℚ) (h1 : -9007199254740992 ≤ a - b)
    (h2 : a - b ≤ 9007199254740992 + 1) :
    (RDouble.num a).sub (.num b) = .num (rnd (a - b)) := by
  simp only [RDouble.sub, RDouble.neg, RDouble.add, ← sub_eq_add_neg]
  exact round64_of_bounds _ h1 h2

theorem mul_num (a b : ℚ) (h1 : -9007199254740992 ≤ a * b)
    (h2 : a * b ≤ 9007199254740992 + 1) :
    (RDouble.num a).mul (.num b) = .num (rnd (a * b)) := by
  simp only [RDouble.mul]
  exact round64_of_bounds _ h1 h2

theorem div_num (a b : ℚ) (hb : b ≠ 0) (h1 : -9007199254740992 ≤ a / b)
    (h2 : a / b ≤ 9007199254740992 + 1) :
    (RDouble.num a).div (.num b) = .num (rnd (a / b)) := by
  simp only [RDouble.div, if_neg hb]
  exact round64_of_bounds _ h1 h2

theorem rnd_unit (q : ℚ) (h0 : 0 ≤ q) (h1 : q ≤ 1) : 0 ≤ rnd q ∧ rnd q ≤ 1 := by
  refine ⟨rnd_nonneg q h0, ?_⟩
  have := rnd_mono _ _ h1
  rwa [rnd_one] at this

theorem rnd_grid_upper (a : ℚ) (h1 : 1 < a) (h2 : a ≤ 2) :
    ∃ A : ℤ, rnd a = (A : ℚ) / 2 ^ 52 ∧ rnd a - a ≤ 1 / 2 ^ 53 := by
  rcases lt_or_eq_of_le h2 with hlt | heq
  · have ha : 0 < a := by linarith
    have he : expo64 a = 0 := expo64_eq a 0 (by norm_num) (by simpa using h1.le) (by simpa using hlt)
    have herr := (rndPos_err a).1
    rw [rnd_of_pos a ha]
    refine ⟨roundHalfEven (a * (2 : ℚ) ^ (52 - expo64 a)), ?_, ?_⟩
    · rw [rndPos_eq, he]
      norm_num
      ring
    · rw [he] at herr
      norm_num at herr
      linarith
  · refine ⟨2 ^ 53, ?_, ?_⟩
    · rw [heq, rnd_two]; norm_num
    · rw [heq, rnd_two]; norm_num

theorem rnd_grid_lower (a : ℚ) (h0 : 0 < a) (h1 : a ≤ 1) :
    ∃ (j : ℕ) (N : ℤ), rnd a = (N : ℚ) / 2 ^ (j + 53) ∧ a - rnd a ≤ 1 / 2 ^ (j + 54) := by
  rcases lt_or_eq_of_le h1 with hlt | heq
  · have hle : expo64 a ≤ -1 := expo64_le_of_lt a h0 (-1) (by norm_num) (by simpa using hlt)
    have hge := expo64_ge a
    obtain ⟨j, hj⟩ := Int.eq_ofNat_of_zero_le (show 0 ≤ -1 - expo64 a by omega)
    have he : expo64 a = -((j : ℤ) + 1) := by omega
    have herr := (rndPos_err a).2
    rw [rnd_of_pos a h0]
    refine ⟨j, roundHalfEven (a * (2 : ℚ) ^ (52 - expo64 a)), ?_, ?_⟩
    · rw [rndPos_eq, he]
      have : (-((j : ℤ) + 1) - 52) = -((j + 53 : ℕ) : ℤ) := by push_cast; ring
      rw [this, zpow_neg, zpow_natCast, div_eq_mul_inv]
    · rw [he] at herr
      have : (-((j : ℤ) + 1) - 53) = -((j + 54 : ℕ) : ℤ) := by push_cast; ring
      rw [this, zpow_neg, zpow_natCast] at herr
      rw [one_div]
      exact herr
  · refine ⟨0, 2 ^ 53, ?_, ?_⟩
    · rw [heq, rnd_one]; norm_num
    · rw [heq, rnd_one]; norm_num

theorem probsum_step_bounds (r x : ℚ) (hr : 0 ≤ r ∧ r ≤ 1) (hx : 0 ≤ x ∧ x ≤ 1) :
    0 ≤ rnd (rnd (r + x) - rnd (r * x)) ∧ rnd (rnd (r + x) - rnd (r * x)) ≤ 1 := by
  have hprod_le : r * x ≤ r + x := by nlinarith [hr.1, hr.2, hx.1, hx.2]
  have hprod0 : 0 ≤ r * x := mul_nonneg hr.1 hx.1
  have hprod1 : r * x ≤ 1 := by nlinarith [hr.1, hr.2, hx.1, hx.2]
  have hps := rnd_mono _ _ hprod_le
  refine ⟨rnd_nonneg _ (by linarith), ?_⟩
  have hp0 : 0 ≤ rnd (r * x) := rnd_nonneg _ hprod0
  by_cases hsum : r + x ≤ 1
  · have hs1 := (rnd_unit (r + x) (by linarith [hr.1, hx.1]) hsum).2
    exact (rnd_unit _ (by linarith) (by linarith)).2
  · have hsum1 : 1 < r + x := not_le.mp hsum
    have hsum2 : r + x ≤ 2 := by linarith [hr.2, hx.2]
    have hpos : 0 < r * x := by
      have hr0 : 0 < r := by linarith [hx.2]
      have hx0 : 0 < x := by linarith [hr.2]
      exact mul_pos hr0 hx0
    obtain ⟨A, hA, hAe⟩ := rnd_grid_upper (r + x) hsum1 hsum2
    obtain ⟨j, N, hN, hNe⟩ := rnd_grid_lower (r * x) hpos hprod1
    have hD : (0 : ℚ) < 2 ^ (j + 53) := by positivity
    have key : r + x - r * x ≤ 1 := by nlinarith [hr.1, hr.2, hx.1, hx.2]
    have hbound : rnd (r + x) - rnd (r * x) ≤ 1 + 1 / 2 ^ 53 + 1 / 2 ^ (j + 54) := by linarith
    have hZ : rnd (r + x) - rnd (r * x) = ((A * 2 ^ (j + 1) - N : ℤ) : ℚ) / 2 ^ (j + 53) := by
      rw [hA, hN]
      push_cast
      field_simp
      ring
    have hW : (((A * 2 ^ (j + 1) - N : ℤ) : ℚ)) < (((2 ^ (j + 53) + 2 ^ j : ℤ) : ℚ)) + 1 := by
      have h1 : ((A * 2 ^ (j + 1) - N : ℤ) : ℚ)
          = (rnd (r + x) - rnd (r * x)) * 2 ^ (j + 53) := by
        rw [hZ]; field_simp
      have h2 : (rnd (r + x) - rnd (r * x)) * 2 ^ (j + 53)
          ≤ (1 + 1 / 2 ^ 53 + 1 / 2 ^ (j + 54)) * 2 ^ (j + 53) :=
        mul_le_mul_of_nonneg_right hbound hD.le
      have h3 : (1 + 1 / 2 ^ 53 + 1 / 2 ^ (j + 54) : ℚ) * 2 ^ (j + 53)
          = 2 ^ (j + 53) + 2 ^ j + 1 / 2 := by
        have e1 : (2 : ℚ) ^ (j + 53) = 2 ^ j * 2 ^ 53 := pow_add 2 j 53
        have e2 : (2 : ℚ) ^ (j + 54) = 2 ^ j * 2 ^ 54 := pow_add 2 j 54
        have hj : (2 : ℚ) ^ j ≠ 0 := by positivity
        rw [e1, e2]
        field_simp
        ring
      rw [h1]
      push_cast
      linarith
    have hZle : (A * 2 ^ (j + 1) - N : ℤ) ≤ 2 ^ (j + 53) + 2 ^ j := by
      have : (A * 2 ^ (j + 1) - N : ℤ) < (2 ^ (j + 53) + 2 ^ j) + 1 := by exact_mod_cast hW
      omega
    have hfin : rnd (r + x) - rnd (r * x) ≤ 1 + 1 / 9007199254740992 := by
      rw [hZ, div_le_iff₀ hD]
      have : (((A * 2 ^ (j + 1) - N : ℤ) : ℚ)) ≤ (((2 ^ (j + 53) + 2 ^ j : ℤ) : ℚ)) := by
        exact_mod_cast hZle
      refine le_trans this ?_
      push_cast
      rw [pow_add]
      norm_num
      nlinarith [pow_pos (by norm_num : (0 : ℚ) < 2) j]
    have := rnd_mono _ _ hfin
    rwa [rnd_one_add_half_ulp] at this

theorem sum_step_bounds (r q : ℚ) (k : ℕ) (hr : 0 ≤ r ∧ r ≤ 9007199254740992)
    (hk : r ≤ (k : ℚ)) (hq : 0 ≤ q ∧ q ≤ 1) :
    (0 ≤ rnd (r + q) ∧ rnd (r + q) ≤ 9007199254740992) ∧ rnd (r + q) ≤ ((k + 1 : ℕ) : ℚ) := by
  have hB : rnd (r + q) ≤ 9007199254740992 := rnd_le_two_pow_53 _ (by linarith [hr.2, hq.2])
  refine ⟨⟨rnd_nonneg _ (by linarith [hr.1, hq.1]), hB⟩, ?_⟩
  by_cases hk2 : k + 1 ≤ 2 ^ 53
  · have h1 : r + q ≤ ((k + 1 : ℕ) : ℚ) := by push_cast; linarith [hq.2]
    have := rnd_mono _ _ h1
    rwa [rnd_natCast (k + 1) hk2] at this
  · have h2 : (2 ^ 53 : ℕ) ≤ k + 1 := by omega
    have h3 : ((2 ^ 53 : ℕ) : ℚ) ≤ ((k + 1 : ℕ) : ℚ) := by exact_mod_cast h2
    have h4 : ((2 ^ 53 : ℕ) : ℚ) = 9007199254740992 := by norm_num
    linarith

theorem roundedSum_bounds (qs : List ℚ) (h : ∀ q ∈ qs, 0 ≤ q ∧ q ≤ 1) (r : ℚ) (k : ℕ)
    (hr : 0 ≤ r ∧ r ≤ 9007199254740992) (hk : r ≤ (k : ℚ)) :
    (0 ≤ roundedSum qs r ∧ roundedSum qs r ≤ 9007199254740992) ∧
      roundedSum qs r ≤ ((k + qs.length : ℕ) : ℚ) := by
  induction qs generalizing r k with
  | nil => exact ⟨hr, by simpa [roundedSum] using hk⟩
  | cons q qs ih =>
    have hq := h q (List.mem_cons_self q qs)
    obtain ⟨s1, s2⟩ := sum_step_bounds r q k hr hk hq
    have := ih (fun p hp => h p (List.mem_cons_of_mem q hp)) (rnd (r + q)) (k + 1) s1 s2
    simp only [roundedSum, List.foldl_cons, List.length_cons] at this ⊢
    have e : k + 1 + qs.length = k + (qs.length + 1) := by ring
    rw [e] at this
    exact this

theorem roundedProd_bounds (qs : List ℚ) (h : ∀ q ∈ qs, 0 ≤ q ∧ q ≤ 1) (r : ℚ)
    (hr : 0 ≤ r ∧ r ≤ 1) : 0 ≤ roundedProd qs r ∧ roundedProd qs r ≤ 1 := by
  induction qs generalizing r with
  | nil => exact hr
  | cons q qs ih =>
    have hq := h q (List.mem_cons_self q qs)
    have h1 : 0 ≤ r * q := mul_nonneg hr.1 hq.1
    have h2 : r * q ≤ 1 := by nlinarith [hr.1, hr.2, hq.1, hq.2]
    exact ih (fun p hp => h p (List.mem_cons_of_mem q hp)) (rnd (r * q)) (rnd_unit _ h1 h2)

theorem roundedProbSum_bounds (qs : List ℚ) (h : ∀ q ∈ qs, 0 ≤ q ∧ q ≤ 1) (r : ℚ)
    (hr : 0 ≤ r ∧ r ≤ 1) : 0 ≤ roundedProbSum qs r ∧ roundedProbSum qs r ≤ 1 := by
  induction qs generalizing r with
  | nil => exact hr
  | cons q qs ih =>
    have hq := h q (List.mem_cons_self q qs)
    exact ih (fun p hp => h p (List.mem_cons_of_mem q hp)) _ (probsum_step_bounds r q hr hq)

theorem lukasTerms_bounds (vals : List RDouble) (h : ∀ v ∈ vals, ValidTruth v) :
    ∀ q ∈ lukasTerms vals, 0 ≤ q ∧ q ≤ 1 := by
  induction vals with
  | nil => simp [lukasTerms]
  | cons v vs ih =>
    have hv : ValidTruth v := h v (List.mem_cons_self v vs)
    have ih2 := ih (fun w hw => h w (List.mem_cons_of_mem v hw))
    cases v with
    | num q =>
      intro p hp
      simp only [lukasTerms, List.mem_cons] at hp
      rcases hp with rfl | hp
      · exact hv
      · exact ih2 p hp
    | na =>
      intro p hp
      simp only [lukasTerms, List.mem_cons] at hp
      rcases hp with rfl | hp
      · exact ⟨zero_le_one, le_rfl⟩
      · exact ih2 p hp
    | posInf => exact absurd hv (by simp [ValidTruth])
    | negInf => exact absurd hv (by simp [ValidTruth])
    | nan => exact absurd hv (by simp [ValidTruth])

theorem lukasTerms_length (vals : List RDouble) : (lukasTerms vals).length = vals.length := by
  induction vals with
  | nil => rfl
  | cons v vs ih => cases v <;> simp [lukasTerms, ih]

theorem lukas_tnorm_loop_valid (vals : List RDouble) (h : ∀ v ∈ vals, ValidTruth v)
    (r : ℚ) (b : Bool) (hr : 0 ≤ r ∧ r ≤ 9007199254740992) :
    lukas_tnorm_loop vals (.num r) b =
      .ok (.num (roundedSum (lukasTerms vals) r), b || hasMissing vals) := by
  induction vals generalizing r b with
  | nil => simp [lukas_tnorm_loop, lukasTerms, roundedSum, hasMissing]
  | cons v vs ih =>
    have hv : ValidTruth v := h v (List.mem_cons_self v vs)
    have hvs : ∀ w ∈ vs, ValidTruth w := fun w hw => h w (List.mem_cons_of_mem v hw)
    have ht := testInvalids_of_valid hv
    cases v with
    | num q =>
      have hq : 0 ≤ q ∧ q ≤ 1 := hv
      have hadd := add_num r q (by linarith [hr.1, hq.1]) (by linarith [hr.2, hq.2])
      have hb := (sum_step_bounds r q 9007199254740992 hr (by norm_num; exact hr.2) hq).1
      simp only [lukas_tnorm_loop, ht, R_IsNA, hadd, ih hvs _ _ hb, lukasTerms, roundedSum,
        hasMissing, List.foldl_cons]
      simp
    | na =>
      have hadd := add_num r 1 (by linarith [hr.1]) (by linarith [hr.2])
      have hb := (sum_step_bounds r 1 9007199254740992 hr (by norm_num; exact hr.2)
        ⟨zero_le_one, le_rfl⟩).1
      simp only [lukas_tnorm_loop, ht, R_IsNA, hadd, ih hvs _ _ hb, lukasTerms, roundedSum,
        hasMissing, List.foldl_cons]
      simp
    | posInf => exact absurd hv (by simp [ValidTruth])
    | negInf => exact absurd hv (by simp [ValidTruth])
    | nan => exact absurd hv (by simp [ValidTruth])

theorem lukas_tconorm_loop_valid (vals : List RDouble) (h : ∀ v ∈ vals, ValidTruth v)
    (r : ℚ) (b : Bool) (hr : 0 ≤ r ∧ r ≤ 9007199254740992) :
    lukas_tconorm_loop vals (.num r) b =
      .ok (.num (roundedSum (nonMissing vals) r), b || hasMissing vals) := by
  induction vals generalizing r b with
  | nil => simp [lukas_tconorm_loop, nonMissing, roundedSum, hasMissing]
  | cons v vs ih =>
    have hv : ValidTruth v := h v (List.mem_cons_self v vs)
    have hvs : ∀ w ∈ vs, ValidTruth w := fun w hw => h w (List.mem_cons_of_mem v hw)
    have ht := testInvalids_of_valid hv
    cases v with
    | num q =>
      have hq : 0 ≤ q ∧ q ≤ 1 := hv
      have hadd := add_num r q (by linarith [hr.1, hq.1]) (by linarith [hr.2, hq.2])
      have hb := (sum_step_bounds r q 9007199254740992 hr (by norm_num; exact hr.2) hq).1
      simp only [lukas_tconorm_loop, ht, R_IsNA, hadd, ih hvs _ _ hb, nonMissing, roundedSum,
        hasMissing, List.foldl_cons]
      simp
    | na =>
      simp only [lukas_tconorm_loop, ht, R_IsNA, ih hvs _ _ hr, nonMissing, hasMissing]
      simp
    | posInf => exact absurd hv (by simp [ValidTruth])
    | negInf => exact absurd hv (by simp [ValidTruth])
    | nan => exact absurd hv (by simp [ValidTruth])

theorem goguen_tnorm_loop_valid (vals : List RDouble) (h : ∀ v ∈ vals, ValidTruth v)
    (r : ℚ) (b : Bool) (hr : 0 ≤ r ∧ r ≤ 1) :
    goguen_tnorm_loop vals (.num r) b =
      .ok (.num (roundedProd (nonMissing vals) r), b || hasMissing vals) := by
  induction vals generalizing r b with
  | nil => simp [goguen_tnorm_loop, nonMissing, roundedProd, hasMissing]
  | cons v vs ih =>
    have hv : ValidTruth v := h v (List.mem_cons_self v vs)
    have hvs : ∀ w ∈ vs, ValidTruth w := fun w hw => h w (List.mem_cons_of_mem v hw)
    have ht := testInvalids_of_valid hv
    cases v with
    | num q =>
      have hq : 0 ≤ q ∧ q ≤ 1 := hv
      have h1 : 0 ≤ r * q := mul_nonneg hr.1 hq.1
      have h2 : r * q ≤ 1 := by nlinarith [hr.1, hr.2, hq.1, hq.2]
      have hmul := mul_num r q (by linarith) (by linarith)
      simp only [goguen_tnorm_loop, ht, R_IsNA, hmul, ih hvs _ _ (rnd_unit _ h1 h2), nonMissing,
        roundedProd, hasMissing, List.foldl_cons]
      simp
    | na =>
      simp only [goguen_tnorm_loop, ht, R_IsNA, ih hvs _ _ hr, nonMissing, hasMissing]
      simp
    | posInf => exact absurd hv (by simp [ValidTruth])
    | negInf => exact absurd hv (by simp [ValidTruth])
    | nan => exact absurd hv (by simp [ValidTruth])

theorem goguen_tconorm_loop_valid (vals : List RDouble) (h : ∀ v ∈ vals, ValidTruth v)
    (r : ℚ) (b : Bool) (hr : 0 ≤ r ∧ r ≤ 1) :
    goguen_tconorm_loop vals (.num r) b =
      .ok (.num (roundedProbSum (nonMissing vals) r), b || hasMissing vals) := by
  induction vals generalizing r b with
  | nil => simp [goguen_tconorm_loop, nonMissing, roundedProbSum, hasMissing]
  | cons v vs ih =>
    have hv : ValidTruth v := h v (List.mem_cons_self v vs)
    have hvs : ∀ w ∈ vs, ValidTruth w := fun w hw => h w (List.mem_cons_of_mem v hw)
    have ht := testInvalids_of_valid hv
    cases v with
    | num q =>
      have hq : 0 ≤ q ∧ q ≤ 1 := hv
      have h1 : 0 ≤ r * q := mul_nonneg hr.1 hq.1
      have h2 : r * q ≤ 1 := by nlinarith [hr.1, hr.2, hq.1, hq.2]
      have hs := rnd_nonneg (r + q) (by linarith [hr.1, hq.1])
      have hs2 : rnd (r + q) ≤ 2 := by
        have := rnd_mono (r + q) 2 (by linarith [hr.2, hq.2])
        rwa [rnd_two] at this
      have hp := rnd_unit _ h1 h2
      have hadd := add_num r q (by linarith [hr.1, hq.1]) (by linarith [hr.2, hq.2])
      have hmul := mul_num r q (by linarith) (by linarith)
      have hsub := sub_num (rnd (r + q)) (rnd (r * q)) (by linarith [hp.2]) (by linarith [hp.1])
      simp only [goguen_tconorm_loop, ht, R_IsNA, hadd, hmul, hsub,
        ih hvs _ _ (probsum_step_bounds r q hr hq), nonMissing, roundedProbSum, hasMissing,
        List.foldl_cons]
      simp
    | na =>
      simp only [goguen_tconorm_loop, ht, R_IsNA, ih hvs _ _ hr, nonMissing, hasMissing]
      simp
    | posInf => exact absurd hv (by simp [ValidTruth])
    | negInf => exact absurd hv (by simp [ValidTruth])
    | nan => exact absurd hv (by simp [ValidTruth])

theorem sub_num_eq (a b : ℚ) : (RDouble.num a).sub (.num b) = round64 (a - b) := by
  simp only [RDouble.sub, RDouble.neg, RDouble.add, ← sub_eq_add_neg]

theorem le_num_zero (t : ℚ) : RDouble.le (.num t) (.num 0) = decide (t ≤ 0) := by
  by_cases h : t ≤ 0
  · rcases lt_or_eq_of_le h with h1 | h1
    · simp [RDouble.le, RDouble.lt, RDouble.eq, h, h1]
    · simp [RDouble.le, RDouble.lt, RDouble.eq, h1]
  · have h1 : ¬ t < 0 := fun hh => h hh.le
    have h2 : ¬ t = 0 := fun hh => h hh.le
    simp [RDouble.le, RDouble.lt, RDouble.eq, h, h1, h2]

theorem lukas_tnorm_valid (vals : List RDouble) (h : ∀ v ∈ vals, ValidTruth v)
    (naRm : Bool) :
    lukas_tnorm vals naRm =
      if lukasRoundedT vals ≤ 0 then .ok (.num 0)
      else if !naRm && hasMissing vals then .ok .na
      else .ok (.num (lukasRoundedT vals)) := by
  have hA := (roundedSum_bounds (lukasTerms vals) (lukasTerms_bounds vals h) 1 1
    ⟨zero_le_one, by norm_num⟩ (by norm_num)).1
  have hloop := lukas_tnorm_loop_valid vals h 1 false ⟨zero_le_one, by norm_num⟩
  have hn0 : 0 ≤ rnd (vals.length : ℚ) := rnd_nonneg _ (by positivity)
  have hpos := two_pow_53_lt_pow2_1024
  by_cases hfin : rnd (vals.length : ℚ) < pow2 1024
  · have hn : round64 (vals.length : ℚ) = .num (rnd (vals.length : ℚ)) :=
      round64_of_lt _ hfin (by linarith)
    have hT : round64 (roundedSum (lukasTerms vals) 1 - rnd (vals.length : ℚ))
        = .num (lukasRoundedT vals) := by
      apply round64_of_lt
      · have h1 := rnd_le_two_pow_53 (roundedSum (lukasTerms vals) 1 - rnd (vals.length : ℚ))
          (by linarith [hA.2])
        linarith
      · have h1 := rnd_mono (-rnd (vals.length : ℚ))
          (roundedSum (lukasTerms vals) 1 - rnd (vals.length : ℚ)) (by linarith [hA.1])
        rw [rnd_neg, rnd_idem] at h1
        linarith
    simp only [lukas_tnorm, hloop, hn, sub_num_eq, hT, le_num_zero, Bool.false_or,
      decide_eq_true_eq]
  · have hn : round64 (vals.length : ℚ) = .posInf := by
      unfold round64
      rw [if_pos (not_lt.mp hfin)]
    have hT : lukasRoundedT vals ≤ 0 := by
      apply rnd_nonpos
      linarith [hA.2, not_lt.mp hfin]
    simp [lukas_tnorm, hloop, hn, RDouble.sub, RDouble.neg, RDouble.add, RDouble.le, RDouble.lt,
      hT]

theorem lukas_tconorm_valid (vals : List RDouble) (h : ∀ v ∈ vals, ValidTruth v)
    (naRm : Bool) :
    lukas_tconorm vals naRm =
      if 1 ≤ roundedSum (nonMissing vals) 0 then .ok (.num 1)
      else if !naRm && hasMissing vals then .ok .na
      else .ok (.num (roundedSum (nonMissing vals) 0)) := by
  have hloop := lukas_tconorm_loop_valid vals h 0 false ⟨le_rfl, by norm_num⟩
  simp only [lukas_tconorm, hloop, RDouble.ge, RDouble.le, RDouble.lt, RDouble.eq,
    Bool.false_or, Bool.or_eq_true, decide_eq_true_eq, ← le_iff_lt_or_eq]

theorem goguen_tnorm_valid (vals : List RDouble) (h : ∀ v ∈ vals, ValidTruth v)
    (naRm : Bool) :
    goguen_tnorm vals naRm =
      if !naRm && hasMissing vals && decide (0 < roundedProd (nonMissing vals) 1) then .ok .na
      else .ok (.num (roundedProd (nonMissing vals) 1)) := by
  have hloop := goguen_tnorm_loop_valid vals h 1 false ⟨zero_le_one, le_rfl⟩
  simp [goguen_tnorm, hloop, RDouble.gt, RDouble.lt]

theorem goguen_tconorm_valid (vals : List RDouble) (h : ∀ v ∈ vals, ValidTruth v)
    (naRm : Bool) :
    goguen_tconorm vals naRm =
      if !naRm && hasMissing vals && decide (roundedProbSum (nonMissing vals) 0 < 1)
        then .ok .na
      else .ok (.num (roundedProbSum (nonMissing vals) 0)) := by
  have hloop := goguen_tconorm_loop_valid vals h 0 false ⟨le_rfl, zero_le_one⟩
  simp [goguen_tconorm, hloop, RDouble.lt]

theorem lukasRoundedT_le_one (vals : List RDouble) (h : ∀ v ∈ vals, ValidTruth v) :
    lukasRoundedT vals ≤ 1 := by
  obtain ⟨hA, hAk⟩ := roundedSum_bounds (lukasTerms vals) (lukasTerms_bounds vals h) 1 1
    ⟨zero_le_one, by norm_num⟩ (by norm_num)
  rw [lukasTerms_length] at hAk
  have key : roundedSum (lukasTerms vals) 1 - rnd (vals.length : ℚ) ≤ 1 := by
    by_cases hn : vals.length ≤ 2 ^ 53
    · rw [rnd_natCast _ hn]
      push_cast at hAk
      linarith
    · have h1 : (9007199254740992 : ℚ) ≤ (vals.length : ℚ) := by
        have : (2 ^ 53 : ℕ) ≤ vals.length := by omega
        have h2 : ((2 ^ 53 : ℕ) : ℚ) ≤ (vals.length : ℚ) := by exact_mod_cast this
        have h3 : ((2 ^ 53 : ℕ) : ℚ) = 9007199254740992 := by norm_num
        linarith
      have h4 := rnd_mono _ _ h1
      rw [rnd_two_pow_53] at h4
      linarith [hA.2]
  have := rnd_mono _ _ key
  rwa [rnd_one] at this

theorem fills_facts (xs xs2 : List RDouble) (hf : FillsMissing xs xs2)
    (h : ∀ v ∈ xs, ValidTruth v) :
    (∀ w ∈ xs2, ValidNumber w) ∧
    xs2.length = xs.length ∧
    (nonMissing xs2).foldr min 1 ≤ (nonMissing xs).foldr min 1 ∧
    (nonMissing xs).foldr max 0 ≤ (nonMissing xs2).foldr max 0 ∧
    (∀ r r2 : ℚ, r2 ≤ r →
      roundedSum (lukasTerms xs2) r2 ≤ roundedSum (lukasTerms xs) r) ∧
    (∀ r r2 : ℚ, r ≤ r2 → rnd r = r →
      roundedSum (nonMissing xs) r ≤ roundedSum (nonMissing xs2) r2) ∧
    (∀ r r2 : ℚ, 0 ≤ r2 → r2 ≤ r → rnd r = r →
      roundedProd (nonMissing xs2) r2 ≤ roundedProd (nonMissing xs) r) := by
  induction hf with
  | nil =>
    refine ⟨by simp, rfl, le_rfl, le_rfl, ?_, ?_, ?_⟩
    · intro r r2 hr; simpa [lukasTerms, roundedSum] using hr
    · intro r r2 hr _; simpa [nonMissing, roundedSum] using hr
    · intro r r2 _ hr _; simpa [nonMissing, roundedProd] using hr
  | @cons v w vs ws hvw _ ih =>
    have hv : ValidTruth v := h v (List.mem_cons_self v vs)
    obtain ⟨i1, i2, i3, i4, i5, i6, i7⟩ :=
      ih (fun z hz => h z (List.mem_cons_of_mem v hz))
    cases v with
    | num q =>
      rw [if_neg (by simp)] at hvw
      subst hvw
      have hq0 : 0 ≤ q := hv.1
      refine ⟨?_, by simp [i2], ?_, ?_, ?_, ?_, ?_⟩
      · intro z hz
        rcases List.mem_cons.mp hz with rfl | hz
        · exact hv
        · exact i1 z hz
      · simp only [nonMissing, List.foldr_cons]
        exact min_le_min le_rfl i3
      · simp only [nonMissing, List.foldr_cons]
        exact max_le_max le_rfl i4
      · intro r r2 hr
        simp only [lukasTerms, roundedSum, List.foldl_cons]
        exact i5 _ _ (rnd_mono _ _ (by linarith))
      · intro r r2 hr _
        simp only [nonMissing, roundedSum, List.foldl_cons]
        exact i6 _ _ (rnd_mono _ _ (by linarith)) (rnd_idem _)
      · intro r r2 h0 hr _
        simp only [nonMissing, roundedProd, List.foldl_cons]
        exact i7 _ _ (rnd_nonneg _ (mul_nonneg h0 hq0))
          (rnd_mono _ _ (mul_le_mul_of_nonneg_right hr hq0)) (rnd_idem _)
    | na =>
      rw [if_pos rfl] at hvw
      cases w with
      | num p =>
        have hp0 : 0 ≤ p := hvw.1
        have hp1 : p ≤ 1 := hvw.2
        refine ⟨?_, by simp [i2], ?_, ?_, ?_, ?_, ?_⟩
        · intro z hz
          rcases List.mem_cons.mp hz with rfl | hz
          · exact hvw
          · exact i1 z hz
        · simp only [nonMissing, List.foldr_cons]
          exact le_trans (min_le_right _ _) i3
        · simp only [nonMissing, List.foldr_cons]
          exact le_trans i4 (le_max_right _ _)
        · intro r r2 hr
          simp only [lukasTerms, roundedSum, List.foldl_cons]
          exact i5 _ _ (rnd_mono _ _ (by linarith))
        · intro r r2 hr hfix
          simp only [nonMissing, roundedSum, List.foldl_cons]
          refine i6 _ _ ?_ hfix
          have := rnd_mono r (r2 + p) (by linarith)
          rwa [hfix] at this
        · intro r r2 h0 hr hfix
          simp only [nonMissing, roundedProd, List.foldl_cons]
          refine i7 _ _ (rnd_nonneg _ (mul_nonneg h0 hp0)) ?_ hfix
          have := rnd_mono (r2 * p) r (le_trans (mul_le_of_le_one_right h0 hp1) hr)
          rwa [hfix] at this
      | na => exact absurd hvw (by simp [ValidNumber])
      | posInf => exact absurd hvw (by simp [ValidNumber])
      | negInf => exact absurd hvw (by simp [ValidNumber])
      | nan => exact absurd hvw (by simp [ValidNumber])
    | posInf => exact absurd hv (by simp [ValidTruth])
    | negInf => exact absurd hv (by simp [ValidTruth])
    | nan => exact absurd hv (by simp [ValidTruth])

theorem rnd_le_add_of_lt_one (q : ℚ) (h0 : 0 ≤ q) (h1 : q < 1) :
    rnd q ≤ q + 1 / 18014398509481984 := by
  rcases eq_or_lt_of_le h0 with h | h
  · rw [← h, rnd_zero]; norm_num
  · rw [rnd_of_pos q h]
    have e := (rndPos_err q).1
    have hk : expo64 q ≤ -1 := expo64_le_of_lt q h (-1) (by norm_num) (by simpa using h1)
    have e1 : (2 : ℚ) ^ (expo64 q - 53) ≤ (2 : ℚ) ^ (-54 : ℤ) :=
      zpow_le_zpow_right₀ (by norm_num) (by omega)
    have e2 : (2 : ℚ) ^ (-54 : ℤ) = 1 / 18014398509481984 := by
      rw [zpow_neg]; norm_num
    rw [e2] at e1
    linarith

theorem lukas_residuum_single (x z : ℚ) (hx : 0 ≤ x ∧ x ≤ 1) (hz : 0 ≤ z ∧ z ≤ 1) :
    lukas_residuum [.num x] [.num z] =
      .ok [.num (if x = 0 then 1 else if x ≤ z then 1 else rnd (rnd (1 - x) + z))] ∧
    (¬ x ≤ z → 0 ≤ rnd (rnd (1 - x) + z) ∧ rnd (rnd (1 - x) + z) ≤ 1) := by
  have hc := rnd_unit (1 - x) (by linarith [hx.2]) (by linarith [hx.1])
  have b : ¬ x ≤ z → 0 ≤ rnd (rnd (1 - x) + z) ∧ rnd (rnd (1 - x) + z) ≤ 1 := by
    intro hxz
    have hlt : z < x := not_le.mp hxz
    refine ⟨rnd_nonneg _ (by linarith [hc.1, hz.1]), ?_⟩
    have e := rnd_le_add_of_lt_one (1 - x) (by linarith [hx.2]) (by linarith [hz.1])
    have := rnd_mono (rnd (1 - x) + z) (1 + 1 / 9007199254740992) (by linarith)
    rwa [rnd_one_add_half_ulp] at this
  refine ⟨?_, b⟩
  rw [lukas_residuum_one (.num x) (.num z) hx hz]
  by_cases h0 : x = 0
  · simp [residuum_rule, RDouble.eq, h0]
  · by_cases h1 : x ≤ z
    · simp [residuum_rule, RDouble.eq, RDouble.le, RDouble.lt, R_IsNA, h0, h1,
        le_iff_lt_or_eq.mp h1]
    · have h2 : ¬ x < z := fun h => h1 h.le
      have h3 : ¬ x = z := fun h => h1 h.le
      have s1 := sub_num 1 x (by linarith [hx.2]) (by linarith [hx.1])
      have s2 := add_num (rnd (1 - x)) z (by linarith [hc.1, hz.1]) (by linarith [hc.2, hz.2])
      simp [residuum_rule, RDouble.eq, RDouble.le, RDouble.lt, R_IsNA, h0, h1, h2, h3,
        lukas_last, s1, s2]

theorem goguen_residuum_single (x z : ℚ) (hx : 0 ≤ x ∧ x ≤ 1) (hz : 0 ≤ z ∧ z ≤ 1) :
    goguen_residuum [.num x] [.num z] =
      .ok [.num (if x = 0 then 1 else if x ≤ z then 1 else rnd (z / x))] ∧
    (x ≠ 0 → ¬ x ≤ z → 0 ≤ rnd (z / x) ∧ rnd (z / x) ≤ 1) := by
  have b : x ≠ 0 → ¬ x ≤ z → 0 ≤ rnd (z / x) ∧ rnd (z / x) ≤ 1 := by
    intro h0 hxz
    have hxpos : 0 < x := lt_of_le_of_ne hx.1 (Ne.symm h0)
    exact rnd_unit _ (div_nonneg hz.1 hx.1) ((div_le_one hxpos).mpr (not_le.mp hxz).le)
  refine ⟨?_, b⟩
  rw [goguen_residuum_one (.num x) (.num z) hx hz]
  by_cases h0 : x = 0
  · simp [residuum_rule, RDouble.eq, h0]
  · by_cases h1 : x ≤ z
    · simp [residuum_rule, RDouble.eq, RDouble.le, RDouble.lt, R_IsNA, h0, h1,
        le_iff_lt_or_eq.mp h1]
    · have h2 : ¬ x < z := fun h => h1 h.le
      have h3 : ¬ x = z := fun h => h1 h.le
      have hxpos : 0 < x := lt_of_le_of_ne hx.1 (Ne.symm h0)
      have hq0 : 0 ≤ z / x := div_nonneg hz.1 hx.1
      have hq1 : z / x ≤ 1 := (div_le_one hxpos).mpr (not_le.mp h1).le
      have hd := div_num z x h0 (by linarith) (by linarith)
      simp [residuum_rule, RDouble.eq, RDouble.le, RDouble.lt, R_IsNA, h0, h1, h2, h3,
        goguen_last, hd]

/-- C1: the validator `testInvalids` fails with the out-of-range error exactly on
the non-missing numbers below 0 or above 1 (the infinities included), fails with
the not-a-number error exactly on NaN, and succeeds in every other case: on the
missing marker and on every number in `[0,1]`. -/
theorem testInvalids_contract (x : RDouble) :
    (testInvalids x = .error .outOfRange ↔
      (x = .negInf ∨ x = .posInf ∨ ∃ q, x = .num q ∧ (q < 0 ∨ 1 < q))) ∧
    (testInvalids x = .error .nanArgument ↔ x = .nan) ∧
    (testInvalids x = .ok () ↔
      ¬ (x = .negInf ∨ x = .posInf ∨ ∃ q, x = .num q ∧ (q < 0 ∨ 1 < q)) ∧ x ≠ .nan) ∧
    (testInvalids x = .ok () ↔ (x = .na ∨ ∃ q, x = .num q ∧ 0 ≤ q ∧ q ≤ 1)) ∧
    testInvalids .na = .ok () ∧ testInvalids .na ≠ .error .nanArgument := by
  cases x with
  | num q =>
    by_cases h0 : q < 0
    · have h1 : ¬ 1 < q := by linarith
      simp [testInvalids, RDouble.lt, RDouble.gt, R_IsNaN, h0, h1]
    · by_cases h1 : 1 < q
      · simp [testInvalids, RDouble.lt, RDouble.gt, R_IsNaN, h0, h1]
      · simp [testInvalids, RDouble.lt, RDouble.gt, R_IsNaN, h0, h1, not_lt.mp h0, not_lt.mp h1]
  | na => simp [testInvalids, RDouble.lt, RDouble.gt, R_IsNaN]
  | posInf => simp [testInvalids, RDouble.lt, RDouble.gt, R_IsNaN]
  | negInf => simp [testInvalids, RDouble.lt, RDouble.gt, R_IsNaN]
  | nan => simp [testInvalids, RDouble.lt, RDouble.gt, R_IsNaN]

/-- C3: on a sequence of non-missing values all in `[0,1]`, for each flag value,
each of the six aggregators succeeds and returns a non-missing number `r` with
`0 ≤ r ≤ 1`. -/
theorem aggregators_in_unit_interval (vals : List RDouble) (naRm : Bool)
    (h : ∀ v ∈ vals, ValidNumber v) :
    (∃ r, goedel_tnorm vals naRm = .ok (.num r) ∧ 0 ≤ r ∧ r ≤ 1) ∧
    (∃ r, lukas_tnorm vals naRm = .ok (.num r) ∧ 0 ≤ r ∧ r ≤ 1) ∧
    (∃ r, goguen_tnorm vals naRm = .ok (.num r) ∧ 0 ≤ r ∧ r ≤ 1) ∧
    (∃ r, goedel_tconorm vals naRm = .ok (.num r) ∧ 0 ≤ r ∧ r ≤ 1) ∧
    (∃ r, lukas_tconorm vals naRm = .ok (.num r) ∧ 0 ≤ r ∧ r ≤ 1) ∧
    (∃ r, goguen_tconorm vals naRm = .ok (.num r) ∧ 0 ≤ r ∧ r ≤ 1) := by
  have hv : ∀ v ∈ vals, ValidTruth v := fun v hm => validTruth_of_validNumber (h v hm)
  have hm := hasMissing_of_validNumber vals h
  have hb := nonMissing_bounds vals hv
  refine ⟨?_, ?_, ?_, ?_, ?_, ?_⟩
  · refine ⟨minWithOne vals, ?_, foldr_min_bounds _ hb⟩
    simp [goedel_tnorm_valid vals hv, hm]
  · rw [lukas_tnorm_valid vals hv]
    by_cases hT : lukasRoundedT vals ≤ 0
    · exact ⟨0, by simp [hT], le_rfl, zero_le_one⟩
    · exact ⟨lukasRoundedT vals, by simp [hT, hm], le_of_lt (not_le.mp hT),
        lukasRoundedT_le_one vals hv⟩
  · refine ⟨roundedProd (nonMissing vals) 1, ?_,
      roundedProd_bounds _ hb 1 ⟨zero_le_one, le_rfl⟩⟩
    simp [goguen_tnorm_valid vals hv, hm]
  · refine ⟨(nonMissing vals).foldl max 0, ?_, foldl_max_bounds _ hb 0 ⟨le_rfl, zero_le_one⟩⟩
    simp [goedel_tconorm_valid vals hv, hm]
  · rw [lukas_tconorm_valid vals hv]
    have hS := (roundedSum_bounds _ hb 0 0 ⟨le_rfl, by norm_num⟩ (by norm_num)).1
    by_cases hS1 : 1 ≤ roundedSum (nonMissing vals) 0
    · exact ⟨1, by simp [hS1], zero_le_one, le_rfl⟩
    · exact ⟨roundedSum (nonMissing vals) 0, by simp [hS1, hm], hS.1, le_of_lt (not_le.mp hS1)⟩
  · refine ⟨roundedProbSum (nonMissing vals) 0, ?_,
      roundedProbSum_bounds _ hb 0 ⟨le_rfl, zero_le_one⟩⟩
    simp [goguen_tconorm_valid vals hv, hm]

/-- Witness for C3 on `[0.5, 0.75]`. -/
theorem aggregators_in_unit_interval_witness :
    (∀ v ∈ [RDouble.num (1/2), .num (3/4)], ValidNumber v) ∧
    ∃ r, lukas_tnorm [.num (1/2), .num (3/4)] false = .ok (.num r) ∧ 0 ≤ r ∧ r ≤ 1 :=
  ⟨by decide!, (aggregators_in_unit_interval [.num (1/2), .num (3/4)] false (by decide!)).2.1⟩

/-- C4, as stated, fails for the Łukasiewicz and Goguen families.  On the doubles
`x = 0.2`, `z = 0.1` the Łukasiewicz residuum is `r = 0.9` and the t-norm of `[x, r]`
is `0.10000000000000009`, above `z`; on `x = 0.6`, `z = 0.35` the Goguen residuum is
`r = 0.5833333333333334` and the t-norm of `[x, r]` is `0.35000000000000003`, above
`z`. -/
theorem residuum_adjoint_counterexample :
    (0 ≤ rnd (2/10) ∧ rnd (2/10) ≤ 1) ∧ (0 ≤ rnd (1/10) ∧ rnd (1/10) ≤ 1) ∧
    lukas_residuum [.num (rnd (2/10))] [.num (rnd (1/10))] = .ok [.num (rnd (9/10))] ∧
    (∀ f, lukas_tnorm [.num (rnd (2/10)), .num (rnd (9/10))] f
      = .ok (.num (225179981368525 / 2251799813685248))) ∧
    rnd (1/10) < 225179981368525 / 2251799813685248 ∧
    ¬ IsResiduumOf lukas_tnorm (rnd (2/10)) (rnd (1/10)) (rnd (9/10)) ∧
    (0 ≤ rnd (6/10) ∧ rnd (6/10) ≤ 1) ∧ (0 ≤ rnd (35/100) ∧ rnd (35/100) ≤ 1) ∧
    goguen_residuum [.num (rnd (6/10))] [.num (rnd (35/100))]
      = .ok [.num (5254199565265579 / 9007199254740992)] ∧
    (∀ f, goguen_tnorm [.num (rnd (6/10)), .num (5254199565265579 / 9007199254740992)] f
      = .ok (.num (6305039478318695 / 18014398509481984))) ∧
    rnd (35/100) < 6305039478318695 / 18014398509481984 ∧
    ¬ IsResiduumOf goguen_tnorm (rnd (6/10)) (rnd (35/100))
      (5254199565265579 / 9007199254740992) := by
  have l1 : ∀ f, lukas_tnorm [.num (rnd (2/10)), .num (rnd (9/10))] f
      = .ok (.num (225179981368525 / 2251799813685248)) := by decide!
  have l2 : rnd (1/10) < 225179981368525 / 2251799813685248 := by decide!
  have g1 : ∀ f, goguen_tnorm
      [.num (rnd (6/10)), .num (5254199565265579 / 9007199254740992)] f
      = .ok (.num (6305039478318695 / 18014398509481984)) := by decide!
  have g2 : rnd (35/100) < 6305039478318695 / 18014398509481984 := by decide!
  refine ⟨by decide!, by decide!, by decide!, l1, l2, ?_, by decide!, by decide!, by decide!,
    g1, g2, ?_⟩
  · intro h
    obtain ⟨t, ht, hle⟩ := h.2.2.1 true
    rw [l1 true] at ht
    have e : 225179981368525 / 2251799813685248 = t := by
      simpa using ht
    rw [← e] at hle
    exact absurd hle (not_le.mpr l2)
  · intro h
    obtain ⟨t, ht, hle⟩ := h.2.2.1 true
    rw [g1 true] at ht
    have e : 6305039478318695 / 18014398509481984 = t := by
      simpa using ht
    rw [← e] at hle
    exact absurd hle (not_le.mpr g2)

/-- C4, amended: for each family and all non-missing `x`, `z` in `[0,1]`, the
residuum of `[x]` and `[z]` succeeds with a one-element result `[r]` where `r` lies
in `[0,1]`; for the Gödel family, moreover, the t-norm of `[x, r]` is at most `z`,
and every `y` in `[0,1]` whose t-norm with `x` is at most `z` satisfies `y ≤ r`. -/
theorem residuum_adjoint (x z : ℚ) (hx : 0 ≤ x ∧ x ≤ 1) (hz : 0 ≤ z ∧ z ≤ 1) :
    (∃ r, goedel_residuum [.num x] [.num z] = .ok [.num r] ∧
      IsResiduumOf goedel_tnorm x z r) ∧
    (∃ r, lukas_residuum [.num x] [.num z] = .ok [.num r] ∧ 0 ≤ r ∧ r ≤ 1) ∧
    (∃ r, goguen_residuum [.num x] [.num z] = .ok [.num r] ∧ 0 ≤ r ∧ r ≤ 1) := by
  obtain ⟨le, lb⟩ := lukas_residuum_single x z hx hz
  obtain ⟨ge, gb⟩ := goguen_residuum_single x z hx hz
  refine ⟨⟨_, goedel_residuum_single x z hx hz, ?_⟩, ⟨_, le, ?_⟩, ⟨_, ge, ?_⟩⟩
  · by_cases h0 : x = 0
    · rw [if_pos h0]
      refine ⟨zero_le_one, le_rfl, fun f => ⟨_, goedel_tnorm_pair x 1 hx (by norm_num) f, ?_⟩,
        fun y hy0 hy1 f => ⟨_, goedel_tnorm_pair x y hx ⟨hy0, hy1⟩ f, fun _ => hy1⟩⟩
      rw [h0]; exact le_trans (min_le_left _ _) hz.1
    · rw [if_neg h0]
      by_cases h1 : x ≤ z
      · rw [if_pos h1]
        exact ⟨zero_le_one, le_rfl,
          fun f => ⟨_, goedel_tnorm_pair x 1 hx (by norm_num) f, le_trans (min_le_left _ _) h1⟩,
          fun y hy0 hy1 f => ⟨_, goedel_tnorm_pair x y hx ⟨hy0, hy1⟩ f, fun _ => hy1⟩⟩
      · rw [if_neg h1]
        refine ⟨hz.1, hz.2, fun f => ⟨_, goedel_tnorm_pair x z hx hz f, min_le_right _ _⟩,
          fun y hy0 hy1 f => ⟨_, goedel_tnorm_pair x y hx ⟨hy0, hy1⟩ f, fun ht => ?_⟩⟩
        rcases min_le_iff.mp ht with h | h
        · exact absurd h h1
        · exact h
  · by_cases h0 : x = 0
    · rw [if_pos h0]; exact ⟨zero_le_one, le_rfl⟩
    · rw [if_neg h0]
      by_cases h1 : x ≤ z
      · rw [if_pos h1]; exact ⟨zero_le_one, le_rfl⟩
      · rw [if_neg h1]; exact lb h1
  · by_cases h0 : x = 0
    · rw [if_pos h0]; exact ⟨zero_le_one, le_rfl⟩
    · rw [if_neg h0]
      by_cases h1 : x ≤ z
      · rw [if_pos h1]; exact ⟨zero_le_one, le_rfl⟩
      · rw [if_neg h1]; exact gb h0 h1

/-- Witness for the amended C4 at the doubles `x = 0.6`, `z = 0.35`: the Gödel
residuum is `0.35`, and it is the residuum of the Gödel t-norm there. -/
theorem residuum_adjoint_witness :
    (0 ≤ rnd (6/10) ∧ rnd (6/10) ≤ 1) ∧ (0 ≤ rnd (35/100) ∧ rnd (35/100) ≤ 1) ∧
    goedel_residuum [.num (rnd (6/10))] [.num (rnd (35/100))] = .ok [.num (rnd (35/100))] ∧
    ∃ r, goedel_residuum [.num (rnd (6/10))] [.num (rnd (35/100))] = .ok [.num r] ∧
      IsResiduumOf goedel_tnorm (rnd (6/10)) (rnd (35/100)) r :=
  ⟨by decide!, by decide!, by decide!,
    (residuum_adjoint (rnd (6/10)) (rnd (35/100)) (by decide!) (by decide!)).1⟩

/-- C5: on a sequence of valid truth values, `goedel_tnorm` returns the missing
marker exactly when the flag says "not removable", the sequence contains a missing
element and the minimum `m` of 1 and the non-missing elements is positive, and
returns `m` otherwise; it returns missing on `[0.5, missing]` and `0` on
`[0, missing]` when the flag says "not removable". -/
theorem goedel_tnorm_rule (vals : List RDouble) (naRm : Bool)
    (h : ∀ v ∈ vals, ValidTruth v) :
    ((naRm = false ∧ hasMissing vals = true ∧ 0 < minWithOne vals) →
      goedel_tnorm vals naRm = .ok .na) ∧
    (¬ (naRm = false ∧ hasMissing vals = true ∧ 0 < minWithOne vals) →
      goedel_tnorm vals naRm = .ok (.num (minWithOne vals))) ∧
    goedel_tnorm [.num (1/2), .na] false = .ok .na ∧
    goedel_tnorm [.num 0, .na] false = .ok (.num 0) := by
  refine ⟨?_, ?_, by decide!, by decide!⟩
  · rintro ⟨h1, h2, h3⟩
    simp [goedel_tnorm_valid vals h, h1, h2, h3]
  · intro hn
    rw [goedel_tnorm_valid vals h, if_neg]
    simpa using hn

/-- Witness for C5 on the sequence `[0.5, missing, 0.25]`, where `m = 0.25`. -/
theorem goedel_tnorm_rule_witness :
    (∀ v ∈ [RDouble.num (1/2), .na, .num (1/4)], ValidTruth v) ∧
    goedel_tnorm [.num (1/2), .na, .num (1/4)] false = .ok .na := by
  have hv : ∀ v ∈ [RDouble.num (1/2), .na, .num (1/4)], ValidTruth v := by decide!
  have hm : minWithOne [RDouble.num (1/2), .na, .num (1/4)] = 1/4 := by
    simp [minWithOne, nonMissing]; norm_num
  exact ⟨hv, (goedel_tnorm_rule _ false hv).1 ⟨rfl, rfl, by rw [hm]; norm_num⟩⟩

/-- C6, as stated, fails on `[0.1, 0.9, missing]` (doubles) with the flag "not
removable": the exact `T = sum + missing - (n - 1)` is `2 ^ (-55) > 0`, so the
claim says missing, but the rounded running total is exactly 3, and the code
returns 0. -/
theorem lukas_tnorm_formula_counterexample :
    (∀ v ∈ [RDouble.num (rnd (1/10)), .num (rnd (9/10)), .na], ValidTruth v) ∧
    0 < lukasBoundedSum [.num (rnd (1/10)), .num (rnd (9/10)), .na] ∧
    hasMissing [.num (rnd (1/10)), .num (rnd (9/10)), .na] = true ∧
    lukas_tnorm [.num (rnd (1/10)), .num (rnd (9/10)), .na] false = .ok (.num 0) ∧
    lukas_tnorm [.num (rnd (1/10)), .num (rnd (9/10)), .na] false ≠ .ok .na := by
  refine ⟨by decide!, by decide!, by decide!, by decide!, by decide!⟩

/-- C6, amended: on a sequence of `n` valid truth values, let `T` be the double the
code computes as `((1 + t1) + ... + tn) - n`, where `ti` is the element `i` (1 when
it is missing) and every addition and the subtraction is rounded to double, in
sequence order.  Then `lukas_tnorm` returns 0 when `T ≤ 0`, otherwise the missing
marker when the flag says "not removable" and a missing element is present,
otherwise `T`; without missing elements the result is `max 0 T`. -/
theorem lukas_tnorm_formula (vals : List RDouble) (naRm : Bool)
    (h : ∀ v ∈ vals, ValidTruth v) :
    (lukasRoundedT vals ≤ 0 → lukas_tnorm vals naRm = .ok (.num 0)) ∧
    (0 < lukasRoundedT vals → naRm = false ∧ hasMissing vals = true →
      lukas_tnorm vals naRm = .ok .na) ∧
    (0 < lukasRoundedT vals → ¬ (naRm = false ∧ hasMissing vals = true) →
      lukas_tnorm vals naRm = .ok (.num (lukasRoundedT vals))) ∧
    (hasMissing vals = false →
      lukas_tnorm vals naRm = .ok (.num (max 0 (lukasRoundedT vals)))) := by
  rw [lukas_tnorm_valid vals h]
  refine ⟨fun hT => by simp [hT], fun hT hna => ?_, fun hT hna => ?_, fun hm => ?_⟩
  · simp [not_le.mpr hT, hna.1, hna.2]
  · rw [if_neg (not_le.mpr hT), if_neg]
    simpa using hna
  · by_cases hT : lukasRoundedT vals ≤ 0
    · simp [hT]
    · simp [hT, hm, le_of_lt (not_le.mp hT)]

/-- Witness for the amended C6 on `[0.75, missing, 0.5]`, where `T = 0.25`. -/
theorem lukas_tnorm_formula_witness :
    (∀ v ∈ [RDouble.num (3/4), .na, .num (1/2)], ValidTruth v) ∧
    lukas_tnorm [.num (3/4), .na, .num (1/2)] false = .ok .na := by
  have hv : ∀ v ∈ [RDouble.num (3/4), .na, .num (1/2)], ValidTruth v := by decide!
  have hT : lukasRoundedT [RDouble.num (3/4), .na, .num (1/2)] = 1/4 := by decide!
  exact ⟨hv, (lukas_tnorm_formula _ false hv).2.1 (by rw [hT]; norm_num) ⟨rfl, rfl⟩⟩

/-- C7, as stated, fails on `[0.3, 0.7, missing]` (doubles) with the flag "not
removable": the exact sum `S` of the two doubles is below 1, so the claim says
missing, but the rounded sum is exactly 1 and the code returns 1. -/
theorem lukas_tconorm_rule_counterexample :
    (∀ v ∈ [RDouble.num (rnd (3/10)), .num (rnd (7/10)), .na], ValidTruth v) ∧
    (nonMissing [.num (rnd (3/10)), .num (rnd (7/10)), .na]).sum < 1 ∧
    hasMissing [.num (rnd (3/10)), .num (rnd (7/10)), .na] = true ∧
    lukas_tconorm [.num (rnd (3/10)), .num (rnd (7/10)), .na] false = .ok (.num 1) ∧
    lukas_tconorm [.num (rnd (3/10)), .num (rnd (7/10)), .na] false ≠ .ok .na := by
  refine ⟨by decide!, by decide!, by decide!, by decide!, by decide!⟩

/-- C7, amended: on a sequence of valid truth values, let `S` be the running sum of
the non-missing elements as the code computes it, from 0, in sequence order, each
addition rounded to double.  Then `lukas_tconorm` returns 1 when `S ≥ 1`, otherwise
the missing marker when the flag says "not removable" and a missing element is
present, otherwise `S`; on the doubles `[0.4, 0.5, 0.3]` with the flag "removable"
it returns 1. -/
theorem lukas_tconorm_rule (vals : List RDouble) (naRm : Bool)
    (h : ∀ v ∈ vals, ValidTruth v) :
    (1 ≤ roundedSum (nonMissing vals) 0 → lukas_tconorm vals naRm = .ok (.num 1)) ∧
    (roundedSum (nonMissing vals) 0 < 1 → naRm = false ∧ hasMissing vals = true →
      lukas_tconorm vals naRm = .ok .na) ∧
    (roundedSum (nonMissing vals) 0 < 1 → ¬ (naRm = false ∧ hasMissing vals = true) →
      lukas_tconorm vals naRm = .ok (.num (roundedSum (nonMissing vals) 0))) ∧
    lukas_tconorm [.num (rnd (4/10)), .num (rnd (5/10)), .num (rnd (3/10))] true
      = .ok (.num 1) := by
  rw [lukas_tconorm_valid vals h]
  refine ⟨fun hS => by simp [hS], fun hS hna => ?_, fun hS hna => ?_, by decide!⟩
  · simp [not_le.mpr hS, hna.1, hna.2]
  · rw [if_neg (not_le.mpr hS), if_neg]
    simpa using hna

/-- Witness for the amended C7 on `[0.25, missing, 0.5]`, where `S = 0.75`. -/
theorem lukas_tconorm_rule_witness :
    (∀ v ∈ [RDouble.num (1/4), .na, .num (1/2)], ValidTruth v) ∧
    lukas_tconorm [.num (1/4), .na, .num (1/2)] true = .ok (.num (3/4)) := by
  have hv : ∀ v ∈ [RDouble.num (1/4), .na, .num (1/2)], ValidTruth v := by decide!
  have hS : roundedSum (nonMissing [RDouble.num (1/4), .na, .num (1/2)]) 0 = 3/4 := by decide!
  have := (lukas_tconorm_rule _ true hv).2.2.1 (by rw [hS]; norm_num) (by simp)
  rw [hS] at this
  exact ⟨hv, this⟩

/-- C9, as stated, fails for the Łukasiewicz t-norm on the doubles `a = 0.3`,
`b = 0.9`: `(1 + a) + b` and `(1 + b) + a` round differently, and the results are
`0.20000000000000018` and `0.19999999999999973`. -/
theorem tnorm_commutative_counterexample :
    ValidTruth (.num (rnd (3/10))) ∧ ValidTruth (.num (rnd (9/10))) ∧
    lukas_tnorm [.num (rnd (3/10)), .num (rnd (9/10))] true
      = .ok (.num (225179981368525 / 1125899906842624)) ∧
    lukas_tnorm [.num (rnd (9/10)), .num (rnd (3/10))] true
      = .ok (.num (450359962737049 / 2251799813685248)) ∧
    lukas_tnorm [.num (rnd (3/10)), .num (rnd (9/10))] true ≠
      lukas_tnorm [.num (rnd (9/10)), .num (rnd (3/10))] true := by
  refine ⟨by decide!, by decide!, by decide!, by decide!, by decide!⟩

/-- C9, amended: for the Gödel and Goguen families, each flag value and all valid
truth values `a`, `b` (doubles in `[0,1]` or missing), the t-norm succeeds on
`[a, b]` and on `[b, a]` with the same result (the missing marker being equal to
itself). -/
theorem tnorm_commutative (a b : RDouble) (naRm : Bool)
    (ha : ValidTruth a) (hb : ValidTruth b) (ra : Representable a) (rb : Representable b) :
    (∃ t, goedel_tnorm [a, b] naRm = .ok t ∧ goedel_tnorm [b, a] naRm = .ok t) ∧
    (∃ t, goguen_tnorm [a, b] naRm = .ok t ∧ goguen_tnorm [b, a] naRm = .ok t) := by
  have hab : ∀ v ∈ [a, b], ValidTruth v := valid_of_two ha hb
  have hba : ∀ v ∈ [b, a], ValidTruth v := valid_of_two hb ha
  have hm : hasMissing [b, a] = hasMissing [a, b] := by
    cases a <;> cases b <;> simp [hasMissing]
  have h1 : minWithOne [b, a] = minWithOne [a, b] := by
    cases a <;> cases b <;> simp [minWithOne, nonMissing, min_comm, min_left_comm]
  have h3 : roundedProd (nonMissing [b, a]) 1 = roundedProd (nonMissing [a, b]) 1 := by
    cases a with
    | num p =>
      cases b with
      | num q =>
        have rp : rnd p = p := ra
        have rq : rnd q = q := rb
        simp only [nonMissing, roundedProd, List.foldl_cons, List.foldl_nil, one_mul, rp, rq,
          mul_comm q p]
      | na => simp [nonMissing]
      | posInf => exact absurd hb (by simp [ValidTruth])
      | negInf => exact absurd hb (by simp [ValidTruth])
      | nan => exact absurd hb (by simp [ValidTruth])
    | na => cases b <;> simp [nonMissing]
    | posInf => exact absurd ha (by simp [ValidTruth])
    | negInf => exact absurd ha (by simp [ValidTruth])
    | nan => exact absurd ha (by simp [ValidTruth])
  refine ⟨?_, ?_⟩
  · rw [goedel_tnorm_valid _ hab, goedel_tnorm_valid _ hba, hm, h1]
    split_ifs <;> exact ⟨_, rfl, rfl⟩
  · rw [goguen_tnorm_valid _ hab, goguen_tnorm_valid _ hba, hm, h3]
    split_ifs <;> exact ⟨_, rfl, rfl⟩

/-- Witness for the amended C9 on the doubles `a = 0.3`, `b = 0.9`. -/
theorem tnorm_commutative_witness :
    ValidTruth (.num (rnd (3/10))) ∧ ValidTruth (.num (rnd (9/10))) ∧
    Representable (.num (rnd (3/10))) ∧ Representable (.num (rnd (9/10))) ∧
    ∃ t, goguen_tnorm [.num (rnd (3/10)), .num (rnd (9/10))] false = .ok t ∧
      goguen_tnorm [.num (rnd (9/10)), .num (rnd (3/10))] false = .ok t :=
  ⟨by decide!, by decide!, by decide!, by decide!,
    (tnorm_commutative (.num (rnd (3/10))) (.num (rnd (9/10))) false
      (by decide!) (by decide!) (by decide!) (by decide!)).2⟩

/-- C10: for each family and each flag value, the t-norm of `[1]` is 1 and the
t-conorm of `[0]` is 0. -/
theorem identity_elements (naRm : Bool) :
    goedel_tnorm [.num 1] naRm = .ok (.num 1) ∧
    lukas_tnorm [.num 1] naRm = .ok (.num 1) ∧
    goguen_tnorm [.num 1] naRm = .ok (.num 1) ∧
    goedel_tconorm [.num 0] naRm = .ok (.num 0) ∧
    lukas_tconorm [.num 0] naRm = .ok (.num 0) ∧
    goguen_tconorm [.num 0] naRm = .ok (.num 0) := by
  cases naRm <;> decide!

/-- C11: for each family and every valid truth value `y` (a number in `[0,1]` or the
missing marker), the residuum of `[0]` and `[y]` is `[1]`; in particular it is `[1]`
for `y` missing, the zero check coming before the missing check. -/
theorem residuum_boundary (y : RDouble) (hy : ValidTruth y) :
    goedel_residuum [.num 0] [y] = .ok [.num 1] ∧
    lukas_residuum [.num 0] [y] = .ok [.num 1] ∧
    goguen_residuum [.num 0] [y] = .ok [.num 1] := by
  have h0 : ValidTruth (.num 0) := ⟨le_rfl, zero_le_one⟩
  rw [goedel_residuum_one _ _ h0 hy, lukas_residuum_one _ _ h0 hy,
    goguen_residuum_one _ _ h0 hy]
  simp [residuum_rule, RDouble.eq]

/-- Witness for C11 at `y` missing. -/
theorem residuum_boundary_witness :
    ValidTruth .na ∧
    goedel_residuum [.num 0] [.na] = .ok [.num 1] ∧
    lukas_residuum [.num 0] [.na] = .ok [.num 1] ∧
    goguen_residuum [.num 0] [.na] = .ok [.num 1] :=
  ⟨trivial, residuum_boundary .na trivial⟩

/-- C12, as stated, fails at the missing marker: it is a valid truth value, and the
residuum of `[missing]` and `[missing]` is `[missing]`, not `[1]`, in every family. -/
theorem residuum_reflexivity_counterexample :
    ValidTruth .na ∧ testInvalids .na = .ok () ∧
    goedel_residuum [.na] [.na] = .ok [.na] ∧
    lukas_residuum [.na] [.na] = .ok [.na] ∧
    goguen_residuum [.na] [.na] = .ok [.na] ∧
    ¬ (∀ x, ValidTruth x → goedel_residuum [x] [x] = .ok [.num 1]) := by
  refine ⟨trivial, by decide, by decide, by decide, by decide, fun h => ?_⟩
  have := h .na trivial
  revert this
  decide

/-- C12, amended: for each family, the residuum of `[x]` and `[x]` is `[1]` for every
number `x` in `[0,1]`, and `[missing]` for `x` missing. -/
theorem residuum_reflexivity (x : RDouble) (hx : ValidTruth x) :
    (x ≠ .na →
      goedel_residuum [x] [x] = .ok [.num 1] ∧
      lukas_residuum [x] [x] = .ok [.num 1] ∧
      goguen_residuum [x] [x] = .ok [.num 1]) ∧
    (x = .na →
      goedel_residuum [x] [x] = .ok [.na] ∧
      lukas_residuum [x] [x] = .ok [.na] ∧
      goguen_residuum [x] [x] = .ok [.na]) := by
  rw [goedel_residuum_one _ _ hx hx, lukas_residuum_one _ _ hx hx,
    goguen_residuum_one _ _ hx hx]
  cases x with
  | num q =>
    by_cases h0 : q = 0 <;> simp [residuum_rule, RDouble.eq, RDouble.le, R_IsNA, h0]
  | na => simp [residuum_rule, RDouble.eq, R_IsNA]
  | posInf => exact absurd hx (by simp [ValidTruth])
  | negInf => exact absurd hx (by simp [ValidTruth])
  | nan => exact absurd hx (by simp [ValidTruth])

/-- Witness for the amended C12 at `x = 0.5`. -/
theorem residuum_reflexivity_witness :
    ValidTruth (.num (1/2)) ∧
    goedel_residuum [.num (1/2)] [.num (1/2)] = .ok [.num 1] ∧
    lukas_residuum [.num (1/2)] [.num (1/2)] = .ok [.num 1] ∧
    goguen_residuum [.num (1/2)] [.num (1/2)] = .ok [.num 1] :=
  ⟨by decide!, (residuum_reflexivity (.num (1/2)) (by decide!)).1 (by simp)⟩

/-- C13, as stated, fails on the doubles `xi = 0.6`, `yi = 0.35`: the code returns
the quotient rounded to double, `0.5833333333333334`, which is not the number
`yi / xi`. -/
theorem goguen_residuum_rule_counterexample :
    ValidTruth (.num (rnd (6/10))) ∧ ValidTruth (.num (rnd (35/100))) ∧
    rnd (35/100) < rnd (6/10) ∧
    goguen_residuum [.num (rnd (6/10))] [.num (rnd (35/100))]
      = .ok [.num (5254199565265579 / 9007199254740992)] ∧
    goguen_residuum [.num (rnd (6/10))] [.num (rnd (35/100))]
      ≠ .ok [.num (rnd (35/100) / rnd (6/10))] := by
  refine ⟨by decide!, by decide!, by decide!, by decide!, by decide!⟩

/-- C13, amended: for valid truth values `xi`, `yi`, `goguen_residuum [xi] [yi]` is
`[1]` if `xi` is the number 0; otherwise `[missing]` if `xi` or `yi` is missing;
otherwise `[1]` if `xi ≤ yi`; otherwise `[yi / xi]` with the quotient rounded to
double.  On `[0.5, 0.8]` and `[0.25, 0.8]` it is `[0.5, 1]`. -/
theorem goguen_residuum_rule (xi yi : RDouble) (hx : ValidTruth xi) (hy : ValidTruth yi) :
    (xi = .num 0 → goguen_residuum [xi] [yi] = .ok [.num 1]) ∧
    (xi ≠ .num 0 → (xi = .na ∨ yi = .na) → goguen_residuum [xi] [yi] = .ok [.na]) ∧
    (∀ a b, xi = .num a → yi = .num b → a ≠ 0 → a ≤ b →
      goguen_residuum [xi] [yi] = .ok [.num 1]) ∧
    (∀ a b, xi = .num a → yi = .num b → a ≠ 0 → b < a →
      goguen_residuum [xi] [yi] = .ok [.num (rnd (b / a))]) ∧
    goguen_residuum [.num (1/2), .num (rnd (8/10))] [.num (1/4), .num (rnd (8/10))] =
      .ok [.num (1/2), .num 1] := by
  rw [goguen_residuum_one _ _ hx hy]
  refine ⟨?_, ?_, ?_, ?_, by decide!⟩
  · rintro rfl
    simp [residuum_rule, RDouble.eq]
  · intro h0 hna
    cases xi with
    | num q =>
      have hq : q ≠ 0 := fun h => h0 (by rw [h])
      rcases hna with h | h
      · exact absurd h (by simp)
      · subst h
        simp [residuum_rule, RDouble.eq, R_IsNA, hq]
    | na => simp [residuum_rule, RDouble.eq, R_IsNA]
    | posInf => exact absurd hx (by simp [ValidTruth])
    | negInf => exact absurd hx (by simp [ValidTruth])
    | nan => exact absurd hx (by simp [ValidTruth])
  · rintro a b rfl rfl ha hab
    simp [residuum_rule, RDouble.eq, RDouble.le, RDouble.lt, R_IsNA, ha,
      le_iff_lt_or_eq.mp hab]
  · rintro a b rfl rfl ha hab
    have h1 : ¬ a < b := not_lt.mpr hab.le
    have h2 : ¬ a = b := ne_of_gt hab
    have hapos : 0 < a := lt_of_le_of_ne hx.1 (Ne.symm ha)
    have hq0 : 0 ≤ b / a := div_nonneg hy.1 hapos.le
    have hq1 : b / a ≤ 1 := (div_le_one hapos).mpr hab.le
    have hd := div_num b a ha (by linarith) (by linarith)
    simp [residuum_rule, RDouble.eq, RDouble.le, RDouble.lt, R_IsNA, ha, h1, h2, goguen_last, hd]

/-- Witness for the amended C13 at `xi = 0.5`, `yi = 0.25`: the result is `[0.5]`. -/
theorem goguen_residuum_rule_witness :
    ValidTruth (.num (1/2)) ∧ ValidTruth (.num (1/4)) ∧
    goguen_residuum [.num (1/2)] [.num (1/4)] = .ok [.num (rnd ((1/4) / (1/2)))] :=
  ⟨by decide!, by decide!,
    (goguen_residuum_rule (.num (1/2)) (.num (1/4)) (by decide!) (by decide!)).2.2.2.1
      (1/2) (1/4) rfl rfl (by norm_num) (by norm_num)⟩

/-- C14: for each family and non-empty sequences `x`, `y` of valid truth values, the
residuum succeeds with a result of length `max (len x) (len y)` whose element `i` is
the single-element result on `[x[i mod len x]]` and `[y[i mod len y]]`; and the
residuum of `[a]` and `[b, c]` has length 2 and equals that of `[a, a]` and `[b, c]`. -/
theorem residuum_recycling (x y : List RDouble) (hx : 0 < x.length) (hy : 0 < y.length)
    (vx : ∀ v ∈ x, ValidTruth v) (vy : ∀ v ∈ y, ValidTruth v) :
    (∃ rs, goedel_residuum x y = .ok rs ∧ rs.length = max x.length y.length ∧
      ∀ i, i < max x.length y.length →
        ∃ r, goedel_residuum [x.get ⟨i % x.length, Nat.mod_lt i hx⟩]
            [y.get ⟨i % y.length, Nat.mod_lt i hy⟩] = .ok [r] ∧ rs[i]? = some r) ∧
    (∃ rs, lukas_residuum x y = .ok rs ∧ rs.length = max x.length y.length ∧
      ∀ i, i < max x.length y.length →
        ∃ r, lukas_residuum [x.get ⟨i % x.length, Nat.mod_lt i hx⟩]
            [y.get ⟨i % y.length, Nat.mod_lt i hy⟩] = .ok [r] ∧ rs[i]? = some r) ∧
    (∃ rs, goguen_residuum x y = .ok rs ∧ rs.length = max x.length y.length ∧
      ∀ i, i < max x.length y.length →
        ∃ r, goguen_residuum [x.get ⟨i % x.length, Nat.mod_lt i hx⟩]
            [y.get ⟨i % y.length, Nat.mod_lt i hy⟩] = .ok [r] ∧ rs[i]? = some r) ∧
    (∀ a b c, ValidTruth a → ValidTruth b → ValidTruth c →
      (∃ r0 r1, goedel_residuum [a] [b, c] = .ok [r0, r1] ∧
        goedel_residuum [a, a] [b, c] = .ok [r0, r1]) ∧
      (∃ r0 r1, lukas_residuum [a] [b, c] = .ok [r0, r1] ∧
        lukas_residuum [a, a] [b, c] = .ok [r0, r1]) ∧
      (∃ r0 r1, goguen_residuum [a] [b, c] = .ok [r0, r1] ∧
        goguen_residuum [a, a] [b, c] = .ok [r0, r1])) := by
  have gx : ∀ i, ValidTruth (x.get ⟨i % x.length, Nat.mod_lt i hx⟩) :=
    fun i => vx _ (List.get_mem x (i % x.length) (Nat.mod_lt i hx))
  have gy : ∀ i, ValidTruth (y.get ⟨i % y.length, Nat.mod_lt i hy⟩) :=
    fun i => vy _ (List.get_mem y (i % y.length) (Nat.mod_lt i hy))
  refine ⟨⟨_, goedel_residuum_valid x y hx hy vx vy, by simp, fun i hi => ?_⟩,
    ⟨_, lukas_residuum_valid x y hx hy vx vy, by simp, fun i hi => ?_⟩,
    ⟨_, goguen_residuum_valid x y hx hy vx vy, by simp, fun i hi => ?_⟩,
    fun a b c ha hb hc => ⟨?_, ?_, ?_⟩⟩
  · exact ⟨_, goedel_residuum_one _ _ (gx i) (gy i), by simp [List.getElem?_range hi]⟩
  · exact ⟨_, lukas_residuum_one _ _ (gx i) (gy i), by simp [List.getElem?_range hi]⟩
  · exact ⟨_, goguen_residuum_one _ _ (gx i) (gy i), by simp [List.getElem?_range hi]⟩
  · refine ⟨residuum_rule goedel_last a b, residuum_rule goedel_last a c, ?_, ?_⟩
    · rw [goedel_residuum_valid [a] [b, c] (by simp) (by simp) (valid_singleton ha)
        (valid_of_two hb hc)]
      simp [List.range_succ]
    · rw [goedel_residuum_valid [a, a] [b, c] (by simp) (by simp) (valid_of_two ha ha)
        (valid_of_two hb hc)]
      simp [List.range_succ]
  · refine ⟨residuum_rule lukas_last a b, residuum_rule lukas_last a c, ?_, ?_⟩
    · rw [lukas_residuum_valid [a] [b, c] (by simp) (by simp) (valid_singleton ha)
        (valid_of_two hb hc)]
      simp [List.range_succ]
    · rw [lukas_residuum_valid [a, a] [b, c] (by simp) (by simp) (valid_of_two ha ha)
        (valid_of_two hb hc)]
      simp [List.range_succ]
  · refine ⟨residuum_rule goguen_last a b, residuum_rule goguen_last a c, ?_, ?_⟩
    · rw [goguen_residuum_valid [a] [b, c] (by simp) (by simp) (valid_singleton ha)
        (valid_of_two hb hc)]
      simp [List.range_succ]
    · rw [goguen_residuum_valid [a, a] [b, c] (by simp) (by simp) (valid_of_two ha ha)
        (valid_of_two hb hc)]
      simp [List.range_succ]

/-- Witness for C14 on `x = [0.5]`, `y = [0.25, missing, 1]`: the result has
length 3. -/
theorem residuum_recycling_witness :
    (∀ v ∈ [RDouble.num (1/2)], ValidTruth v) ∧
    (∀ v ∈ [RDouble.num (1/4), .na, .num 1], ValidTruth v) ∧
    ∃ rs, goedel_residuum [.num (1/2)] [.num (1/4), .na, .num 1] = .ok rs ∧
      rs.length = 3 := by
  obtain ⟨rs, h1, h2, _⟩ := (residuum_recycling [.num (1/2)] [.num (1/4), .na, .num 1]
    (by decide) (by decide) (by decide!) (by decide!)).1
  exact ⟨by decide!, by decide!, rs, h1, h2⟩

/-- C15, as stated, fails when both operands are empty: every residuum then returns
the empty result sequence instead of failing. -/
theorem empty_operand_counterexample :
    goedel_residuum [] [] = .ok [] ∧
    lukas_residuum [] [] = .ok [] ∧
    goguen_residuum [] [] = .ok [] := by
  decide

/-- C15, amended: for each family, a residuum call in which both `x` and `y` have
length zero returns the empty sequence, and no error. -/
theorem empty_operand (x y : List RDouble) (hx : x.length = 0) (hy : y.length = 0) :
    goedel_residuum x y = .ok [] ∧
    lukas_residuum x y = .ok [] ∧
    goguen_residuum x y = .ok [] := by
  have ex : x = [] := List.length_eq_zero.mp hx
  have ey : y = [] := List.length_eq_zero.mp hy
  subst ex
  subst ey
  exact ⟨rfl, rfl, rfl⟩

/-- Witness for the amended C15 on two empty sequences. -/
theorem empty_operand_witness :
    ([] : List RDouble).length = 0 ∧ goedel_residuum [] [] = .ok [] :=
  ⟨rfl, (empty_operand [] [] rfl rfl).1⟩

/-- C16: for each of the six aggregators, every sequence and each flag value, the
call fails exactly when the sequence contains an element the validator rejects, and
the error is the one the validator gives for the first such element in sequence
order; `goedel_tnorm` fails out-of-range on `[1.5]`, not-a-number on `[NaN]`, and
succeeds on `[missing]`. -/
theorem validation_aborts_call :
    ValidationAborts goedel_tnorm ∧ ValidationAborts lukas_tnorm ∧
    ValidationAborts goguen_tnorm ∧ ValidationAborts goedel_tconorm ∧
    ValidationAborts lukas_tconorm ∧ ValidationAborts goguen_tconorm ∧
    (∀ f, goedel_tnorm [.num (3/2)] f = .error .outOfRange) ∧
    (∀ f, goedel_tnorm [.nan] f = .error .nanArgument) ∧
    (∀ f, ∃ r, goedel_tnorm [.na] f = .ok r) ∧
    (∀ f, goedel_tnorm [.num 0, .num (3/2)] f = .error .outOfRange) ∧
    (∀ f, goedel_tnorm [.nan, .num (3/2)] f = .error .nanArgument) := by
  refine ⟨goedel_tnorm_aborts, lukas_tnorm_aborts, goguen_tnorm_aborts, goedel_tconorm_aborts,
    lukas_tconorm_aborts, goguen_tconorm_aborts, ?_, ?_, ?_, ?_, ?_⟩
  · intro f; cases f <;> decide!
  · intro f; cases f <;> decide
  · intro f; cases f
    · exact ⟨.na, by decide⟩
    · exact ⟨.num 1, by decide⟩
  · intro f; cases f <;> decide!
  · intro f; cases f <;> decide!

/-- C17: for a sequence `xs` of valid truth values, `strict_neg xs` succeeds with a
result of the same length whose element `i` is missing if `xs[i]` is missing, 1 if
`xs[i]` is the number 0, and 0 otherwise; on `[0, 0.3, missing]` it is
`[1, 0, missing]`. -/
theorem strict_neg_rule (xs : List RDouble) (h : ∀ v ∈ xs, ValidTruth v) :
    (∃ rs, strict_neg xs = .ok rs ∧ rs.length = xs.length ∧
      ∀ (i : Nat) (v : RDouble), xs[i]? = some v → rs[i]? = some (strictNegSpec v)) ∧
    strict_neg [.num 0, .num (3/10), .na] = .ok [.num 1, .num 0, .na] := by
  refine ⟨⟨_, strict_neg_valid xs h, by simp, fun i v hv => ?_⟩, by decide!⟩
  simp [hv, strict_neg_value_eq_spec]

/-- Witness for C17 on `[0.5, missing]`. -/
theorem strict_neg_rule_witness :
    (∀ v ∈ [RDouble.num (1/2), .na], ValidTruth v) ∧
    ∃ rs, strict_neg [.num (1/2), .na] = .ok rs ∧ rs.length = 2 ∧
      ∀ (i : Nat) (v : RDouble),
        [RDouble.num (1/2), .na][i]? = some v → rs[i]? = some (strictNegSpec v) :=
  ⟨by decide!, (strict_neg_rule [.num (1/2), .na] (by decide!)).1⟩

/-- C18, as stated, fails on `[0.5]`: `lukas_tnorm` returns `0.5`, while the rule as
worded (start at 1, add the elements, subtract `n - 1 = 0`) gives `1.5`. -/
theorem lukas_tnorm_worded_counterexample :
    (∀ v ∈ [RDouble.num (1/2)], ValidTruth v) ∧
    lukas_tnorm [.num (1/2)] true = .ok (.num (1/2)) ∧
    lukas_tnorm_worded ((([RDouble.num (1/2)].length : ℕ) : ℚ) - 1) [.num (1/2)] true
      = .num (3/2) ∧
    lukas_tnorm [.num (1/2)] true ≠
      .ok (lukas_tnorm_worded ((([RDouble.num (1/2)].length : ℕ) : ℚ) - 1)
        [.num (1/2)] true) := by
  refine ⟨by decide!, by decide!, by decide!, by decide!⟩

/-- C18, amended: on a sequence of `n` valid truth values, `lukas_tnorm` computes a
total that starts at 1, adds each non-missing element and 1 for each missing
element, then subtracts `n` from that total, every addition and the subtraction
being rounded to double in sequence order; the value so obtained is the bounded
result that is compared with 0 and returned (0 if it is `≤ 0`, missing if not
removable and a missing element was seen, else the bounded result). -/
theorem lukas_tnorm_as_worded (vals : List RDouble) (naRm : Bool)
    (h : ∀ v ∈ vals, ValidTruth v) :
    lukas_tnorm vals naRm = .ok (lukas_tnorm_worded (vals.length : ℚ) vals naRm) := by
  rw [lukas_tnorm_valid vals h]
  simp only [lukas_tnorm_worded, lukasRoundedT]
  split_ifs <;> rfl

/-- Witness for the amended C18 on the doubles `[0.3, 0.9]`. -/
theorem lukas_tnorm_as_worded_witness :
    (∀ v ∈ [RDouble.num (rnd (3/10)), .num (rnd (9/10))], ValidTruth v) ∧
    lukas_tnorm [.num (rnd (3/10)), .num (rnd (9/10))] true =
      .ok (lukas_tnorm_worded (([RDouble.num (rnd (3/10)), .num (rnd (9/10))].length : ℕ) : ℚ)
        [.num (rnd (3/10)), .num (rnd (9/10))] true) :=
  ⟨by decide!, lukas_tnorm_as_worded [.num (rnd (3/10)), .num (rnd (9/10))] true (by decide!)⟩

/-- C19, as stated, fails for the Łukasiewicz t-norm on the doubles
`[0.3, missing, 0.8]` with the flag "removable": the result is
`0.09999999999999964`, but on `[0.3, 0.8]` it is `0.10000000000000009`. -/
theorem removable_means_removed_counterexample :
    (∀ v ∈ [RDouble.num (rnd (3/10)), .na, .num (rnd (8/10))], ValidTruth v) ∧
    removeMissing [.num (rnd (3/10)), .na, .num (rnd (8/10))]
      = [.num (rnd (3/10)), .num (rnd (8/10))] ∧
    lukas_tnorm [.num (rnd (3/10)), .na, .num (rnd (8/10))] true
      = .ok (.num (56294995342131 / 562949953421312)) ∧
    lukas_tnorm [.num (rnd (3/10)), .num (rnd (8/10))] true
      = .ok (.num (225179981368525 / 2251799813685248)) ∧
    lukas_tnorm [.num (rnd (3/10)), .na, .num (rnd (8/10))] true ≠
      lukas_tnorm (removeMissing [.num (rnd (3/10)), .na, .num (rnd (8/10))]) true := by
  refine ⟨by decide!, by decide!, by decide!, by decide!, by decide!⟩

/-- C19, amended: for each of the six aggregators and every sequence `xs` of valid
truth values, the call with the flag "removable" returns a non-missing number; and
for each aggregator other than the Łukasiewicz t-norm, the same aggregator applied
(with either flag value) to `xs` with all missing elements deleted returns that same
number. -/
theorem removable_means_removed (xs : List RDouble) (h : ∀ v ∈ xs, ValidTruth v) :
    (∃ r, goedel_tnorm xs true = .ok (.num r) ∧
      ∀ f, goedel_tnorm (removeMissing xs) f = .ok (.num r)) ∧
    (∃ r, lukas_tnorm xs true = .ok (.num r)) ∧
    (∃ r, goguen_tnorm xs true = .ok (.num r) ∧
      ∀ f, goguen_tnorm (removeMissing xs) f = .ok (.num r)) ∧
    (∃ r, goedel_tconorm xs true = .ok (.num r) ∧
      ∀ f, goedel_tconorm (removeMissing xs) f = .ok (.num r)) ∧
    (∃ r, lukas_tconorm xs true = .ok (.num r) ∧
      ∀ f, lukas_tconorm (removeMissing xs) f = .ok (.num r)) ∧
    (∃ r, goguen_tconorm xs true = .ok (.num r) ∧
      ∀ f, goguen_tconorm (removeMissing xs) f = .ok (.num r)) := by
  obtain ⟨hv, hn, hm, _, _⟩ := removeMissing_facts xs h
  refine ⟨⟨minWithOne xs, ?_, fun f => ?_⟩, ?_,
    ⟨roundedProd (nonMissing xs) 1, ?_, fun f => ?_⟩,
    ⟨(nonMissing xs).foldl max 0, ?_, fun f => ?_⟩, ?_,
    ⟨roundedProbSum (nonMissing xs) 0, ?_, fun f => ?_⟩⟩
  · simp [goedel_tnorm_valid xs h]
  · simp [goedel_tnorm_valid _ hv, hm, minWithOne, hn]
  · by_cases c : lukasRoundedT xs ≤ 0
    · exact ⟨0, by simp [lukas_tnorm_valid xs h, c]⟩
    · exact ⟨lukasRoundedT xs, by simp [lukas_tnorm_valid xs h, c]⟩
  · simp [goguen_tnorm_valid xs h]
  · simp [goguen_tnorm_valid _ hv, hm, hn]
  · simp [goedel_tconorm_valid xs h]
  · simp [goedel_tconorm_valid _ hv, hm, hn]
  · by_cases c : 1 ≤ roundedSum (nonMissing xs) 0
    · refine ⟨1, ?_, fun f => ?_⟩
      · simp [lukas_tconorm_valid xs h, c]
      · simp [lukas_tconorm_valid _ hv, hn, c]
    · refine ⟨roundedSum (nonMissing xs) 0, ?_, fun f => ?_⟩
      · simp [lukas_tconorm_valid xs h, c]
      · simp [lukas_tconorm_valid _ hv, hn, c, hm]
  · simp [goguen_tconorm_valid xs h]
  · simp [goguen_tconorm_valid _ hv, hm, hn]

/-- Witness for the amended C19 on the doubles `[0.3, missing, 0.8]`. -/
theorem removable_means_removed_witness :
    (∀ v ∈ [RDouble.num (rnd (3/10)), .na, .num (rnd (8/10))], ValidTruth v) ∧
    ∃ r, goguen_tconorm [.num (rnd (3/10)), .na, .num (rnd (8/10))] true = .ok (.num r) ∧
      ∀ f, goguen_tconorm (removeMissing [.num (rnd (3/10)), .na, .num (rnd (8/10))]) f
        = .ok (.num r) :=
  ⟨by decide!,
    (removable_means_removed [.num (rnd (3/10)), .na, .num (rnd (8/10))] (by decide!)).2.2.2.2.2⟩

/-- C20, as stated, fails for the Goguen t-conorm on `[1, missing]`: with the flag
"not removable" the call returns the number 1, but with the missing element replaced
by the double `0.15` the result is `0.9999999999999999`. -/
theorem short_circuit_sound_counterexample :
    (∀ v ∈ [RDouble.num 1, .na], ValidTruth v) ∧
    FillsMissing [.num 1, .na] [.num 1, .num (rnd (15/100))] ∧
    goguen_tconorm [.num 1, .na] false = .ok (.num 1) ∧
    (∀ f, goguen_tconorm [.num 1, .num (rnd (15/100))] f
      = .ok (.num (9007199254740991 / 9007199254740992))) ∧
    (∀ f, goguen_tconorm [.num 1, .num (rnd (15/100))] f ≠ .ok (.num 1)) := by
  refine ⟨by decide!, ?_, by decide!, by decide!, by decide!⟩
  refine List.Forall₂.cons (by simp) (List.Forall₂.cons ?_ List.Forall₂.nil)
  rw [if_pos rfl]
  decide!

/-- C20, amended: for each aggregator other than the Goguen t-conorm and every
sequence `xs` of valid truth values, if the call with the flag "not removable"
returns a non-missing value `v`, then on every sequence obtained from `xs` by
replacing each missing element with a number in `[0,1]` the aggregator (with either
flag value) returns `v` as well. -/
theorem short_circuit_sound (xs xs2 : List RDouble) (h : ∀ v ∈ xs, ValidTruth v)
    (hf : FillsMissing xs xs2) :
    (∀ v, goedel_tnorm xs false = .ok v → v ≠ .na → ∀ f, goedel_tnorm xs2 f = .ok v) ∧
    (∀ v, lukas_tnorm xs false = .ok v → v ≠ .na → ∀ f, lukas_tnorm xs2 f = .ok v) ∧
    (∀ v, goguen_tnorm xs false = .ok v → v ≠ .na → ∀ f, goguen_tnorm xs2 f = .ok v) ∧
    (∀ v, goedel_tconorm xs false = .ok v → v ≠ .na → ∀ f, goedel_tconorm xs2 f = .ok v) ∧
    (∀ v, lukas_tconorm xs false = .ok v → v ≠ .na → ∀ f, lukas_tconorm xs2 f = .ok v) := by
  obtain ⟨hn2, hlen, k1, k2, k3, k4, k5⟩ := fills_facts xs xs2 hf h
  have hw : ∀ w ∈ xs2, ValidTruth w := fun w hm => validTruth_of_validNumber (hn2 w hm)
  have hm2 : hasMissing xs2 = false := hasMissing_of_validNumber xs2 hn2
  have hb := nonMissing_bounds xs h
  have hb2 := nonMissing_bounds xs2 hw
  have same : hasMissing xs = false → xs2 = xs := fills_of_no_missing xs xs2 hf
  refine ⟨fun v hv hna f => ?_, fun v hv hna f => ?_, fun v hv hna f => ?_,
    fun v hv hna f => ?_, fun v hv hna f => ?_⟩
  · cases hm : hasMissing xs with
    | false =>
      rw [same hm]
      rw [goedel_tnorm_valid xs h] at hv ⊢
      simpa [hm] using hv
    | true =>
      by_cases c : 0 < minWithOne xs
      · have e : goedel_tnorm xs false = .ok .na := by simp [goedel_tnorm_valid xs h, hm, c]
        rw [e] at hv
        exact absurd (Except.ok.inj hv).symm hna
      · have e : goedel_tnorm xs false = .ok (.num (minWithOne xs)) := by
          simp [goedel_tnorm_valid xs h, hm, c]
        rw [e] at hv
        rw [← Except.ok.inj hv]
        have e2 : minWithOne xs2 = minWithOne xs :=
          le_antisymm k1 (le_trans (not_lt.mp c) (foldr_min_bounds _ hb2).1)
        simp [goedel_tnorm_valid xs2 hw, hm2, e2]
  · cases hm : hasMissing xs with
    | false =>
      rw [same hm]
      rw [lukas_tnorm_valid xs h] at hv ⊢
      simpa [hm] using hv
    | true =>
      by_cases c : lukasRoundedT xs ≤ 0
      · have e : lukas_tnorm xs false = .ok (.num 0) := by simp [lukas_tnorm_valid xs h, c]
        rw [e] at hv
        rw [← Except.ok.inj hv]
        have c2 : lukasRoundedT xs2 ≤ 0 := by
          refine le_trans ?_ c
          unfold lukasRoundedT
          rw [hlen]
          exact rnd_mono _ _ (by linarith [k3 1 1 le_rfl])
        simp [lukas_tnorm_valid xs2 hw, c2]
      · have e : lukas_tnorm xs false = .ok .na := by simp [lukas_tnorm_valid xs h, hm, c]
        rw [e] at hv
        exact absurd (Except.ok.inj hv).symm hna
  · cases hm : hasMissing xs with
    | false =>
      rw [same hm]
      rw [goguen_tnorm_valid xs h] at hv ⊢
      simpa [hm] using hv
    | true =>
      by_cases c : 0 < roundedProd (nonMissing xs) 1
      · have e : goguen_tnorm xs false = .ok .na := by simp [goguen_tnorm_valid xs h, hm, c]
        rw [e] at hv
        exact absurd (Except.ok.inj hv).symm hna
      · have e : goguen_tnorm xs false = .ok (.num (roundedProd (nonMissing xs) 1)) := by
          simp [goguen_tnorm_valid xs h, hm, c]
        rw [e] at hv
        rw [← Except.ok.inj hv]
        have e2 : roundedProd (nonMissing xs2) 1 = roundedProd (nonMissing xs) 1 :=
          le_antisymm (k5 1 1 zero_le_one le_rfl rnd_one)
            (le_trans (not_lt.mp c) (roundedProd_bounds _ hb2 1 ⟨zero_le_one, le_rfl⟩).1)
        simp [goguen_tnorm_valid xs2 hw, hm2, e2]
  · cases hm : hasMissing xs with
    | false =>
      rw [same hm]
      rw [goedel_tconorm_valid xs h] at hv ⊢
      simpa [hm] using hv
    | true =>
      by_cases c : (nonMissing xs).foldl max 0 < 1
      · have e : goedel_tconorm xs false = .ok .na := by
          simp [goedel_tconorm_valid xs h, hm, c]
        rw [e] at hv
        exact absurd (Except.ok.inj hv).symm hna
      · have e : goedel_tconorm xs false = .ok (.num ((nonMissing xs).foldl max 0)) := by
          simp [goedel_tconorm_valid xs h, hm, c]
        rw [e] at hv
        rw [← Except.ok.inj hv]
        have e2 : (nonMissing xs2).foldl max 0 = (nonMissing xs).foldl max 0 := by
          have u := (foldl_max_bounds _ hb2 0 ⟨le_rfl, zero_le_one⟩).2
          have l : (nonMissing xs).foldl max 0 ≤ (nonMissing xs2).foldl max 0 := by
            rw [foldl_max_zero _ hb, foldl_max_zero _ hb2]
            exact k2
          exact le_antisymm (le_trans u (not_lt.mp c)) l
        simp [goedel_tconorm_valid xs2 hw, hm2, e2]
  · cases hm : hasMissing xs with
    | false =>
      rw [same hm]
      rw [lukas_tconorm_valid xs h] at hv ⊢
      simpa [hm] using hv
    | true =>
      by_cases c : 1 ≤ roundedSum (nonMissing xs) 0
      · have e : lukas_tconorm xs false = .ok (.num 1) := by
          simp [lukas_tconorm_valid xs h, c]
        rw [e] at hv
        rw [← Except.ok.inj hv]
        simp [lukas_tconorm_valid xs2 hw, le_trans c (k4 0 0 le_rfl rnd_zero)]
      · have e : lukas_tconorm xs false = .ok .na := by
          simp [lukas_tconorm_valid xs h, hm, c]
        rw [e] at hv
        exact absurd (Except.ok.inj hv).symm hna

/-- Witness for the amended C20 on `[0, missing]`, filled in as `[0, 0.5]`: the Gödel
t-norm is 0 on both. -/
theorem short_circuit_sound_witness :
    (∀ v ∈ [RDouble.num 0, .na], ValidTruth v) ∧
    FillsMissing [.num 0, .na] [.num 0, .num (1/2)] ∧
    goedel_tnorm [.num 0, .na] false = .ok (.num 0) ∧
    ∀ f, goedel_tnorm [.num 0, .num (1/2)] f = .ok (.num 0) := by
  have hv : ∀ v ∈ [RDouble.num 0, .na], ValidTruth v := by decide!
  have hf : FillsMissing [.num 0, .na] [.num 0, .num (1/2)] := by
    refine List.Forall₂.cons (by simp) (List.Forall₂.cons ?_ List.Forall₂.nil)
    rw [if_pos rfl]
    decide!
  have e : goedel_tnorm [.num 0, .na] false = .ok (.num 0) := by decide!
  exact ⟨hv, hf, e, (short_circuit_sound _ _ hv hf).1 _ e (by simp)⟩

end Lfl
